import Mathlib

/-!
Verification of the spreadsheet-plotter core against its specification.

This file is a shallow embedding of the program's core (src/datasheet.rs,
src/opeseq.rs, src/column.rs) into Lean 4, together with theorems that
settle the frozen claims C1..C10.

Modelling conventions:
- Rust f64 is modelled by the type F64 below: an exact rational for every
  finite double, plus the three non-finite values posInf, negInf and nan.
  Arithmetic on finite values is exact rational arithmetic (the standard
  idealization: rounding is not modelled); the IEEE rules for producing
  and propagating non-finite values are modelled case by case.
- Rust strings are modelled as List Char; the character indices produced
  by OpSeq::match_split coincide with Rust byte indices because operator
  sequence strings are ASCII.
- Rust HashMap of String to usize is modelled as an association list with
  overwriting insert; the program only ever inserts and looks up.
- Rust panics (index out of range, Option::unwrap on None) have no value
  to return; where a claim depends on one (Expr::constant_result unwrap)
  the surrounding function returns a dedicated panicked outcome, and
  out-of-range indexing is modelled by List.getD with a default, with all
  theorems staying inside the in-range uses made by the program (the
  pipeline driver always passes the in-range indices x=0, y=1).
-/

set_option maxRecDepth 20000

/-! ## The f64 model -/

/-- Model of Rust f64: exact rationals for finite doubles plus the
non-finite values. -/
inductive F64 where
  | fin (q : ℚ)
  | posInf
  | negInf
  | nan
deriving DecidableEq, Repr

/-- f64::is_finite. -/
def F64.isFinite : F64 → Bool
  | .fin _ => true
  | _ => false

/-- IEEE negation. -/
def F64.neg : F64 → F64
  | .fin q => .fin (-q)
  | .posInf => .negInf
  | .negInf => .posInf
  | .nan => .nan

/-- IEEE addition (exact on finite values). -/
def F64.add : F64 → F64 → F64
  | .fin a, .fin b => .fin (a + b)
  | .nan, _ => .nan
  | _, .nan => .nan
  | .fin _, x => x
  | x, .fin _ => x
  | .posInf, .posInf => .posInf
  | .negInf, .negInf => .negInf
  | _, _ => .nan

/-- IEEE subtraction. -/
def F64.sub (a b : F64) : F64 := F64.add a (F64.neg b)

/-- IEEE multiplication (exact on finite values). -/
def F64.mul : F64 → F64 → F64
  | .fin a, .fin b => .fin (a * b)
  | .nan, _ => .nan
  | _, .nan => .nan
  | .fin a, .posInf => if a = 0 then .nan else if 0 < a then .posInf else .negInf
  | .posInf, .fin a => if a = 0 then .nan else if 0 < a then .posInf else .negInf
  | .fin a, .negInf => if a = 0 then .nan else if 0 < a then .negInf else .posInf
  | .negInf, .fin a => if a = 0 then .nan else if 0 < a then .negInf else .posInf
  | .posInf, .posInf => .posInf
  | .posInf, .negInf => .negInf
  | .negInf, .posInf => .negInf
  | .negInf, .negInf => .posInf

/-- IEEE division: finite / 0 is a signed infinity (0/0 is NaN), exact
otherwise. The sign of zero is not modelled; division by zero uses the
positive-zero convention, matching the program's only reachable case. -/
def F64.div : F64 → F64 → F64
  | .fin a, .fin b =>
    if b = 0 then (if a = 0 then .nan else if 0 < a then .posInf else .negInf)
    else .fin (a / b)
  | .nan, _ => .nan
  | _, .nan => .nan
  | .fin _, .posInf => .fin 0
  | .fin _, .negInf => .fin 0
  | .posInf, .fin a => if 0 ≤ a then .posInf else .negInf
  | .negInf, .fin a => if 0 ≤ a then .negInf else .posInf
  | _, _ => .nan

/-- Truncation toward zero on rationals, used for the fmod model. -/
def qtrunc (q : ℚ) : ℤ := if 0 ≤ q then q.num / (q.den : ℤ) else -((-q).num / (q.den : ℤ))

/-- IEEE remainder (Rust % on f64 is fmod: truncated remainder). -/
def F64.fmod : F64 → F64 → F64
  | .fin a, .fin b => if b = 0 then .nan else .fin (a - b * ((qtrunc (a / b) : ℤ) : ℚ))
  | .nan, _ => .nan
  | _, .nan => .nan
  | .fin a, .posInf => .fin a
  | .fin a, .negInf => .fin a
  | _, _ => .nan

/-- Model of f64::powf. powf of anything to the zero exponent is 1, as
in IEEE; a finite base to a (nonzero) integer exponent is exact; a
non-integer exponent generally has an irrational value, which the
rational model cannot represent, and is modelled as NaN (no claim in
this development evaluates powf at a non-integer exponent); non-finite
bases are likewise modelled as NaN. -/
def F64.pow : F64 → F64 → F64
  | a, .fin b =>
    if b = 0 then .fin 1
    else
      match a with
      | .fin q =>
        if b.den = 1 then
          (if q = 0 then (if 0 < b then .fin 0 else .posInf) else .fin (q ^ b.num))
        else .nan
      | _ => .nan
  | _, _ => .nan

/-- Comparison used by sorts: partial_cmp-based le. Only ever reached on
finite values in the program (every sort is guarded by is_sortable); the
NaN rows return false as IEEE comparisons do. -/
def F64.le : F64 → F64 → Bool
  | .fin a, .fin b => decide (a ≤ b)
  | .nan, _ => false
  | _, .nan => false
  | .negInf, _ => true
  | _, .posInf => true
  | .posInf, _ => false
  | .fin _, .negInf => false

/-- IEEE strict less-than. -/
def F64.lt : F64 → F64 → Bool
  | .fin a, .fin b => decide (a < b)
  | .nan, _ => false
  | _, .nan => false
  | .negInf, .negInf => false
  | .negInf, _ => true
  | .posInf, _ => false
  | .fin _, .posInf => true
  | .fin _, .negInf => false

/-- IEEE greater-than, as used by the Derivation window test. -/
def F64.gt (a b : F64) : Bool := F64.lt b a

/-- IEEE equality: NaN compares unequal to everything including itself. -/
def F64.beq : F64 → F64 → Bool
  | .fin a, .fin b => decide (a = b)
  | .posInf, .posInf => true
  | .negInf, .negInf => true
  | _, _ => false

/-! ## Insertion sort

Rust's sort_by is a stable ascending sort; for a total key order a stable
sort is the unique permutation that is ascending and keeps the original
relative order of equal keys, so the stable insertion sort below computes
the same list. -/

/-- Insert an element in front of the first element it is le to. -/
def insertSorted (le : α → α → Bool) (a : α) : List α → List α
  | [] => [a]
  | b :: l => if le a b then a :: b :: l else b :: insertSorted le a l

/-- Stable insertion sort. -/
def insertionSortBy (le : α → α → Bool) : List α → List α
  | [] => []
  | a :: l => insertSorted le a (insertionSortBy le l)

/-! ## Datasheet (src/datasheet.rs) -/

/-- Association-list model of HashMap insert (overwrites any previous
binding of the key). -/
def mapInsert (k : String) (v : Nat) (m : List (String × Nat)) : List (String × Nat) :=
  (k, v) :: m.filter (fun p => p.1 ≠ k)

/-- Association-list model of HashMap get. -/
def mapFind (k : String) (m : List (String × Nat)) : Option Nat :=
  (m.find? (fun p => p.1 = k)).map (fun p => p.2)

/-- Swap two list entries; the Rust Vec::swap panics out of range, the
model returns the list unchanged there (all program uses are in range). -/
def listSwap (l : List α) (i j : Nat) : List α :=
  match l.get? i, l.get? j with
  | some a, some b => (l.set i b).set j a
  | _, _ => l

/-- Datasheet: the unified internal spreadsheet structure
(struct Datasheet of src/datasheet.rs). -/
structure Datasheet where
  headers : List String
  rev_headers : List (String × Nat)
  columns : List (List F64)
  sorted_by : Option Nat
deriving DecidableEq, Repr

/-- Datasheet::new - rev_headers is collected from the reversed
enumeration so that the first of two equal headers wins. -/
def Datasheet.new (headers : List String) (columns : List (List F64))
    (sorted_by : Option Nat) : Datasheet :=
  { headers := headers
    rev_headers := (headers.enum.reverse).foldl (fun m p => mapInsert p.2 p.1 m) []
    columns := columns
    sorted_by := sorted_by }

/-- Datasheet::set_column_name. -/
def Datasheet.set_column_name (ds : Datasheet) (index : Nat) (name : String) : Datasheet :=
  { ds with headers := ds.headers.set index name
            rev_headers := mapInsert name index ds.rev_headers }

/-- Datasheet::get_column_index. -/
def Datasheet.get_column_index (ds : Datasheet) (name : String) : Option Nat :=
  mapFind name ds.rev_headers

/-- Datasheet::is_sortable: a column is sortable iff all values are finite. -/
def Datasheet.is_sortable (col : List F64) : Bool :=
  col.all F64.isFinite

/-- Datasheet::exchange_column: swaps the two columns data and headers and
updates rev_headers; note it does not touch sorted_by. -/
def Datasheet.exchange_column (ds : Datasheet) (i j : Nat) : Except String Datasheet :=
  .ok { ds with
        columns := listSwap ds.columns i j
        rev_headers := mapInsert (ds.headers.getD j "") i
                         (mapInsert (ds.headers.getD i "") j ds.rev_headers)
        headers := listSwap ds.headers i j }

/-- Datasheet::is_unique: adjacent distinctness of the column, only
answered when the sheet is recorded as sorted by that column. The Rust
code compares with f64 !=, which is true on NaN pairs. -/
def Datasheet.is_unique (ds : Datasheet) (col : Nat) : Except String Bool :=
  match ds.sorted_by with
  | some sorted_col =>
    if sorted_col = col then
      .ok (((ds.columns.getD col []).zip ((ds.columns.getD col []).drop 1)).all
             (fun p => ! F64.beq p.1 p.2))
    else .error "Column is not sorted."
  | none => .error "Column is not sorted."

/-- Datasheet::sort: early-returns when sorted_by already records this
column; otherwise requires the column finite, stably sorts the
index/value pairs of the column, applies the resulting index permutation
to every column, and records sorted_by. -/
def Datasheet.sort (ds : Datasheet) (col : Nat) : Except String Datasheet :=
  if ds.sorted_by = some col then .ok ds
  else if ¬ Datasheet.is_sortable (ds.columns.getD col []) then
    .error "Column contains INF/NAN."
  else
    .ok { ds with
          columns := ds.columns.map (fun c =>
            ((insertionSortBy (fun a b => F64.le a.2 b.2)
                (ds.columns.getD col []).enum).map (fun p => p.1)).map
              (fun idx => c.getD idx (F64.fin 0)))
          sorted_by := some col }

/-! ## Transform operators (src/opeseq.rs) -/

/-- name_pair_to_column_header. -/
def name_pair_to_column_header (p : String × String) : List String := [p.1, p.2]

namespace CDFOperator

/-- CDFOperator::get_converted_column_names. -/
def get_converted_column_names (_xname yname : String) : String × String :=
  (yname, "CDF")

/-- CDFOperator::apply: takes the y column as the new x values, rejects
non-finite values, sorts ascending, and pairs with the ranks i/N. -/
def apply (ds : Datasheet) (x y : Nat) : Except String Datasheet :=
  let xval := ds.columns.getD y []
  if ¬ Datasheet.is_sortable xval then .error "y column contains INF/NAN."
  else
    let xval := insertionSortBy F64.le xval
    let yval := (List.range xval.length).map
      (fun i => F64.fin (((i : ℚ) + 1) / (xval.length : ℚ)))
    let headers := name_pair_to_column_header
      (get_converted_column_names (ds.headers.getD x "") (ds.headers.getD y ""))
    .ok (Datasheet.new headers [xval, yval] (some x))

end CDFOperator

namespace DerivationOperator

/-- DerivationOperator::new: the window must be positive (the Rust code
also rejects non-finite windows; every value of the rational model is
finite, and the operator-sequence grammar cannot spell a non-finite
argument because alphabetic characters end the argument list). -/
def new (window : ℚ) : Except String ℚ :=
  if window ≤ 0 then .error "Window value must be a positive finite number"
  else .ok window

/-- The scan of DerivationOperator::apply: walk the (x, y) pairs keeping
the last emitted start point; a point closer than the window to the start
is skipped, otherwise the finite difference is emitted and the start
moves. -/
def scan (window : ℚ) : Option (F64 × F64) → List (F64 × F64) → List (F64 × F64)
  | _, [] => []
  | none, p :: rest => scan window (some p) rest
  | some (x0, y0), (xv, yv) :: rest =>
    if F64.gt (F64.add x0 (F64.fin window)) xv then
      scan window (some (x0, y0)) rest
    else
      (xv, F64.div (F64.sub yv y0) (F64.sub xv x0)) ::
        scan window (some (xv, yv)) rest

/-- DerivationOperator::get_converted_column_names. -/
def get_converted_column_names (xname yname : String) : String × String :=
  (xname, yname ++ ":Derivation")

/-- DerivationOperator::apply. -/
def apply (window : ℚ) (ds : Datasheet) (x y : Nat) : Except String Datasheet := do
  let ds ← ds.sort x
  let u ← ds.is_unique x
  if ¬ u then throw "Column contains duplicated values." else
  let pts := scan window none ((ds.columns.getD x []).zip (ds.columns.getD y []))
  let headers := name_pair_to_column_header
    (get_converted_column_names (ds.headers.getD x "") (ds.headers.getD y ""))
  .ok (Datasheet.new headers [pts.map (fun p => p.1), pts.map (fun p => p.2)] (some x))

end DerivationOperator

namespace IntegralOperator

/-- The running-sum scan of IntegralOperator::apply. -/
def sums (acc : F64) : List F64 → List F64
  | [] => []
  | y :: rest => F64.add acc y :: sums (F64.add acc y) rest

/-- IntegralOperator::get_converted_column_names. -/
def get_converted_column_names (xname yname : String) : String × String :=
  (xname, yname ++ ":Integral")

/-- IntegralOperator::apply. -/
def apply (ds : Datasheet) (x y : Nat) : Except String Datasheet := do
  let ds ← ds.sort x
  let u ← ds.is_unique x
  if ¬ u then throw "Column contains duplicated values." else
  let headers := name_pair_to_column_header
    (get_converted_column_names (ds.headers.getD x "") (ds.headers.getD y ""))
  .ok (Datasheet.new headers
    [ds.columns.getD x [], sums (F64.fin 0) (ds.columns.getD y [])] (some x))

end IntegralOperator

namespace MergeOperator

/-- The fold of MergeOperator::apply: collapse runs of consecutive equal
x (f64 equality, so NaN never extends a run), summing their y; the final
open run is flushed at the end. -/
def loop : Option F64 → F64 → List (F64 × F64) → List (F64 × F64)
  | none, _, [] => []
  | some px, acc, [] => [(px, acc)]
  | none, _, (xv, yv) :: rest => loop (some xv) yv rest
  | some px, acc, (xv, yv) :: rest =>
    if F64.beq px xv then loop (some px) (F64.add acc yv) rest
    else (px, acc) :: loop (some xv) yv rest

/-- MergeOperator::get_converted_column_names. -/
def get_converted_column_names (xname yname : String) : String × String :=
  (xname, yname ++ ":Merge")

/-- MergeOperator::apply. -/
def apply (ds : Datasheet) (x y : Nat) : Except String Datasheet :=
  let pts := loop none (F64.fin 0) ((ds.columns.getD x []).zip (ds.columns.getD y []))
  let headers := name_pair_to_column_header
    (get_converted_column_names (ds.headers.getD x "") (ds.headers.getD y ""))
  .ok (Datasheet.new headers [pts.map (fun p => p.1), pts.map (fun p => p.2)] none)

end MergeOperator

namespace RotateOperator

/-- RotateOperator::get_converted_column_names. -/
def get_converted_column_names (xname yname : String) : String × String :=
  (yname, xname)

/-- RotateOperator::apply: just Datasheet::exchange_column. -/
def apply (ds : Datasheet) (x y : Nat) : Except String Datasheet :=
  ds.exchange_column x y

end RotateOperator

namespace StepOperator

/-- StepOperator::get_converted_column_names. -/
def get_converted_column_names (xname yname : String) : String × String :=
  (xname, yname ++ ":Step")

/-- StepOperator::apply: consecutive differences of y, paired with the x
column minus its first element. -/
def apply (ds : Datasheet) (x y : Nat) : Except String Datasheet :=
  let yval := ds.columns.getD y []
  let yval := List.zipWith (fun a b => F64.sub b a) yval (yval.drop 1)
  let headers := name_pair_to_column_header
    (get_converted_column_names (ds.headers.getD x "") (ds.headers.getD y ""))
  .ok (Datasheet.new headers [(ds.columns.getD x []).drop 1, yval] none)

end StepOperator

namespace SortOperator

/-- SortOperator::get_converted_column_names. -/
def get_converted_column_names (xname yname : String) : String × String :=
  (xname, yname)

/-- SortOperator::apply: Datasheet::sort by x. -/
def apply (ds : Datasheet) (x : Nat) (_y : Nat) : Except String Datasheet :=
  ds.sort x

end SortOperator

/-! ## Decimal numerals

Float parsing and printing for operator arguments. Rust parses arguments
with str::parse::<f64> and prints them with the f64 Display
implementation (shortest decimal form that round-trips, never scientific
notation). In the exact-rational model, parsing letter-free numerals is
exact (the operator grammar can never feed a letter, so forms like 1e5,
inf or nan cannot occur in an argument), and printing renders the exact
decimal expansion with the least possible number of fraction digits,
which is the shortest form. A decimal numeral too large for f64
overflows to infinity in Rust but stays finite and exact here. -/

/-- Numeric value of an ASCII digit. -/
def digitVal (c : Char) : Nat := c.toNat - '0'.toNat

/-- Value of a digit string, most significant digit first. -/
def digitsToNat (cs : List Char) : Nat := cs.foldl (fun a c => 10 * a + digitVal c) 0

/-- Unsigned part of the float grammar, restricted to letter-free
numerals: digits, optionally followed by a dot and more digits, with at
least one digit overall. -/
def parseUnsignedF64 (cs : List Char) : Option ℚ :=
  match cs.dropWhile Char.isDigit with
  | [] =>
    if (cs.takeWhile Char.isDigit).isEmpty then none
    else some ((digitsToNat (cs.takeWhile Char.isDigit) : ℚ))
  | '.' :: fp =>
    if fp.all Char.isDigit && (!(cs.takeWhile Char.isDigit).isEmpty || !fp.isEmpty) then
      some ((digitsToNat (cs.takeWhile Char.isDigit) : ℚ) +
        (digitsToNat fp : ℚ) / (10 : ℚ) ^ fp.length)
    else none
  | _ => none

/-- Model of str::parse::<f64> on letter-free input: an optional sign
followed by the unsigned numeral. -/
def parseF64 (cs : List Char) : Option ℚ :=
  match cs with
  | '+' :: rest => parseUnsignedF64 rest
  | '-' :: rest => (parseUnsignedF64 rest).map (fun q => -q)
  | _ => parseUnsignedF64 cs

/-- Least k (up to the fuel) such that q times 10^k is an integer. -/
def decExpGo : Nat → ℚ → Nat → Option Nat
  | 0, _, _ => none
  | f + 1, q, k => if (q * (10 : ℚ) ^ k).den = 1 then some k else decExpGo f q (k + 1)

/-- Least k such that q times 10^k is an integer; defined (with fuel
q.den + 1, which is proved sufficient below) exactly when q is a decimal
fraction, which every parsed argument is. -/
def decExp (q : ℚ) : Option Nat := decExpGo (q.den + 1) q 0

/-- Decimal digit string of a natural number (fuelled division loop;
fuel n + 1 always suffices). -/
def natDigitsGo : Nat → Nat → List Char
  | 0, _ => []
  | f + 1, n =>
    if n < 10 then [Nat.digitChar n]
    else natDigitsGo f (n / 10) ++ [Nat.digitChar (n % 10)]

/-- Decimal digit string of a natural number. -/
def natDigits (n : Nat) : List Char := natDigitsGo (n + 1) n

/-- Shortest plain decimal rendering of a nonnegative decimal fraction;
models f64 Display for such values. The fallback branch is unreachable
for every value the program prints (they are all parsed decimals). -/
def qToCharsPos (q : ℚ) : List Char :=
  match decExp q with
  | none => ['0']
  | some k =>
    if k = 0 then natDigits (q * (10 : ℚ) ^ k).num.toNat
    else
      natDigits ((q * (10 : ℚ) ^ k).num.toNat / 10 ^ k) ++ '.' ::
        (List.replicate
          (k - (natDigits ((q * (10 : ℚ) ^ k).num.toNat % 10 ^ k)).length) '0' ++
          natDigits ((q * (10 : ℚ) ^ k).num.toNat % 10 ^ k))

/-- Model of the f64 Display implementation for decimal values. -/
def qToChars (q : ℚ) : List Char :=
  if q < 0 then '-' :: qToCharsPos (-q) else qToCharsPos q

/-! ## Operator-sequence parsing (src/opeseq.rs) -/

/-- Internal representation of operators (struct Op). -/
structure Op where
  op : Char
  arg : List ℚ
deriving DecidableEq, Repr

/-- Comma splitter for argument lists; an empty string yields one empty
piece, as Rust str::split does. -/
def splitOnComma : List Char → List (List Char)
  | [] => [[]]
  | ',' :: rest => [] :: splitOnComma rest
  | c :: rest =>
    match splitOnComma rest with
    | [] => [[c]]
    | piece :: more => (c :: piece) :: more

/-- Op::from_str: reads one alphabetic opcode and the following
comma-separated numeric arguments (terminated by the next alphabetic
character, or the end of the string), returning the operator and the
number of characters consumed. -/
def Op.from_str (s : List Char) : Except String (Op × Nat) :=
  match s with
  | [] => .error "Empty string"
  | c :: rest =>
    if ¬ c.isAlpha then .error "Non-alphabetic operator"
    else
      let i := (List.findIdx? Char.isAlpha rest).getD rest.length
      if i = 0 then .ok (⟨c, []⟩, 1)
      else
        match (splitOnComma (rest.take i)).mapM parseF64 with
        | some args => .ok (⟨c, args⟩, 1 + i)
        | none => .error "invalid number in operator arguments"

/-- The loop of OpSeq::str_to_ops, fuelled; one unit of fuel per parsed
operator, so fuel = length of the string always suffices (each operator
consumes at least one character; the fuel branch is unreachable). -/
def strToOpsGo : Nat → List Char → Except String (List Op)
  | _, [] => .ok []
  | 0, _ :: _ => .error "out of fuel"
  | fuel + 1, c :: rest =>
    match Op.from_str (c :: rest) with
    | .error e => .error e
    | .ok (op, n) => (strToOpsGo fuel ((c :: rest).drop n)).map (fun ops => op :: ops)

/-- OpSeq::str_to_ops. -/
def OpSeq.str_to_ops (s : List Char) : Except String (List Op) :=
  strToOpsGo s.length s

/-- enum Transform: the complete transform operator library. -/
inductive Transform where
  | CDF
  | Derivation (window : ℚ)
  | Integral
  | Merge
  | Rotate
  | Step
  | Sort
deriving DecidableEq, Repr

/-- Transform::from_op: lower-case opcode dispatch. Arguments beyond
those consumed are ignored, as in the source (only Derivation reads
arg[0]). -/
def Transform.from_op (o : Op) : Except String Transform :=
  match o.op with
  | 'c' => .ok .CDF
  | 'd' =>
    match o.arg.head? with
    | none => .error "Derivation smooth window size not provided"
    | some w => (DerivationOperator.new w).map Transform.Derivation
  | 'i' => .ok .Integral
  | 'm' => .ok .Merge
  | 'o' => .ok .Sort
  | 'r' => .ok .Rotate
  | 's' => .ok .Step
  | _ => .error "Unknown transform operator"

/-- Transformer::apply dispatch for Transform. -/
def Transform.apply : Transform → Datasheet → Nat → Nat → Except String Datasheet
  | .CDF, ds, x, y => CDFOperator.apply ds x y
  | .Derivation w, ds, x, y => DerivationOperator.apply w ds x y
  | .Integral, ds, x, y => IntegralOperator.apply ds x y
  | .Merge, ds, x, y => MergeOperator.apply ds x y
  | .Rotate, ds, x, y => RotateOperator.apply ds x y
  | .Step, ds, x, y => StepOperator.apply ds x y
  | .Sort, ds, x, y => SortOperator.apply ds x y

/-- Transformer::to_string dispatch for Transform. -/
def Transform.to_string : Transform → List Char
  | .CDF => ['c']
  | .Derivation w => 'd' :: qToChars w
  | .Integral => ['i']
  | .Merge => ['m']
  | .Rotate => ['r']
  | .Step => ['s']
  | .Sort => ['o']

/-- get_converted_column_names dispatch for Transform. -/
def Transform.get_converted_column_names : Transform → String → String → String × String
  | .CDF, xn, yn => CDFOperator.get_converted_column_names xn yn
  | .Derivation _, xn, yn => DerivationOperator.get_converted_column_names xn yn
  | .Integral, xn, yn => IntegralOperator.get_converted_column_names xn yn
  | .Merge, xn, yn => MergeOperator.get_converted_column_names xn yn
  | .Rotate, xn, yn => RotateOperator.get_converted_column_names xn yn
  | .Step, xn, yn => StepOperator.get_converted_column_names xn yn
  | .Sort, xn, yn => SortOperator.get_converted_column_names xn yn

/-- enum Dump. The plotter variant renders output as a side effect, which
the model does not track; both the real PlotDumper and the DumbPlotter
used by the string checkers serialize to P, so the plotter_factory
argument of the source is irrelevant to everything modelled here. -/
inductive Dump where
  | DataSheet (target_code : Char)
  | Plotter
deriving DecidableEq, Repr

/-- Dump::from_op. -/
def Dump.from_op (o : Op) : Except String Dump :=
  match o.op with
  | 'P' => .ok .Plotter
  | 'C' => .ok (.DataSheet 'C')
  | 'O' => .ok (.DataSheet 'O')
  | _ => .error "Unknown dump operator"

/-- Dumper::to_string dispatch for Dump. -/
def Dump.to_string : Dump → List Char
  | .DataSheet c => [c]
  | .Plotter => ['P']

/-- enum Operator. -/
inductive Operator where
  | transform (t : Transform)
  | dump (d : Dump)
deriving DecidableEq, Repr

/-- Operator::from_op: lower-case selects a Transform, upper-case a
Dump. -/
def Operator.from_op (o : Op) : Except String Operator :=
  if o.op.isLower then (Transform.from_op o).map Operator.transform
  else if o.op.isUpper then (Dump.from_op o).map Operator.dump
  else .error "Unknown operator"

/-- Operator::to_string. -/
def Operator.to_string : Operator → List Char
  | .transform t => t.to_string
  | .dump d => d.to_string

/-- OpSeq::new (and OpSeq::new_dumb, which differs only in the plotter
factory): parse the raw operators, then build the validated operator
values. -/
def OpSeq.new (s : List Char) : Except String (List Operator) := do
  let raws ← OpSeq.str_to_ops s
  raws.mapM Operator.from_op

/-- OpSeq::to_string: re-serialize the operators up to and including
until_index; dump operators render as empty when include_dump is
false. -/
def OpSeq.to_string (ops : List Operator) (until_index : Nat) (include_dump : Bool) : List Char :=
  ((ops.take (until_index + 1)).map (fun op =>
    match op with
    | .transform t => t.to_string
    | .dump d => if include_dump then d.to_string else [])).flatten

/-- OpSeq::match_split: pair the non-uppercase characters of the
requested string (keeping their positions in the full request) with the
non-uppercase characters of the stored string, and fold: the result is
the position after the last compared character as long as every compared
pair agrees, and None as soon as any pair disagrees. Note the fold
starts from Some 0, so a comparison with no pairs at all yields
Some 0.

One step of the fold is split out as matchStep: a disagreeing pair
turns the accumulator to None for good, an agreeing pair records the
position after the request character just compared. -/
def matchStep (res : Option Nat) (p : (Char × Nat) × Char) : Option Nat :=
  match res with
  | some _ => if p.1.1 = p.2 then some (p.1.2 + 1) else none
  | none => none

/-- OpSeq::match_split. -/
def OpSeq.match_split (opseq_str sub_opseq_str : List Char) : Option (List Char × Nat) :=
  let opseq_iter := (opseq_str.zip (List.range opseq_str.length)).filter
    (fun p => !p.1.isUpper)
  let sub_opseq_iter := sub_opseq_str.filter (fun c => !c.isUpper)
  let match_res := (opseq_iter.zip sub_opseq_iter).foldl matchStep (some 0)
  match_res.map (fun n => (sub_opseq_str, n))

/-- Where Datasheet::read obtains the initial data in the SPLNK branch. -/
inductive ReadSource where
  | fromCache (matched : List Char) (skip : Nat)
  | fromOriginal (path : String)
deriving DecidableEq, Repr

/-- The cache-selection logic of Datasheet::read for a SPLNK input
(src/datasheet.rs lines 108-157): the stored operator strings are
scanned most-recent first and the first one match_split accepts is used
(the datasheet is then loaded from that cache file and the matched
character count of the request is skipped); if none is accepted, the
sheet is re-read from the original source path recorded in the cache
header. -/
def Datasheet.read_lnk_source (opseq_str : List Char) (opseq_cache : List (List Char))
    (ds_path : String) : ReadSource :=
  match (opseq_cache.reverse).findSome? (fun s => OpSeq.match_split opseq_str s) with
  | some (matched, skip) => .fromCache matched skip
  | none => .fromOriginal ds_path

/-- Modelled from the spec (section 4.4 matching algorithm), for
comparison with the implementation: the match length of a stored string
against a request is the count of leading positions at which their
non-dump (non-uppercase) characters agree. -/
def countLeadingAgree : List Char → List Char → Nat
  | a :: as, b :: bs => if a = b then countLeadingAgree as bs + 1 else 0
  | _, _ => 0

/-- Modelled from the spec: position-by-position match length of a
stored string against the request. -/
def specMatchLength (opseq_str sub : List Char) : Nat :=
  countLeadingAgree (opseq_str.filter (fun c => !c.isUpper))
    (sub.filter (fun c => !c.isUpper))

/-! ## Expression compiler (src/column.rs) -/

/-- enum ParseError (positional context strings are not modelled). -/
inductive ParseError where
  | invalidCharacter (c : Char)
  | invalidNumber
  | invalidColumnReference
  | unexpectedToken
  | mismatchedParentheses
deriving DecidableEq, Repr

/-- enum EvaluationError. -/
inductive EvaluationError where
  | columnNotFound (i : Nat)
  | rowIndexOutOfBounds
  | columnsDifferentLengths
  | nonFiniteNumber
deriving DecidableEq, Repr

/-- check_finite of the FiniteCheck helper trait. -/
def check_finite (v : F64) : Except EvaluationError F64 :=
  if v.isFinite then .ok v else .error .nonFiniteNumber

/-- is_operator of the OperatorCheck helper trait. -/
def is_operator (c : Char) : Bool :=
  c == '+' || c == '-' || c == '*' || c == '/' || c == '%' || c == '^' ||
  c == '(' || c == ')'

/-- enum Token. Numbers carry the exact rational model of the parsed
f64. -/
inductive Token where
  | number (n : ℚ)
  | column (i : Nat)
  | plus
  | minus
  | star
  | slash
  | percent
  | caret
  | lparen
  | rparen
  | eof
deriving DecidableEq, Repr

/-- enum Expr: the expression tree. -/
inductive Expr where
  | number (n : ℚ)
  | column (i : Nat)
  | add (a b : Expr)
  | subtract (a b : Expr)
  | multiply (a b : Expr)
  | divide (a b : Expr)
  | modulus (a b : Expr)
  | exponentiate (a b : Expr)
  | unaryNegate (a : Expr)
deriving DecidableEq, Repr

/-- Expr::evaluate: every leaf and every intermediate arithmetic result
goes through check_finite. -/
def Expr.evaluate : Expr → List (List F64) → Nat → Except EvaluationError F64
  | .number n, _, _ => check_finite (F64.fin n)
  | .column i, columns, row =>
    match columns.get? (i - 1) with
    | none => .error (.columnNotFound i)
    | some col =>
      match col.get? row with
      | none => .error .rowIndexOutOfBounds
      | some v => check_finite v
  | .add a b, c, r => do check_finite (F64.add (← a.evaluate c r) (← b.evaluate c r))
  | .subtract a b, c, r => do check_finite (F64.sub (← a.evaluate c r) (← b.evaluate c r))
  | .multiply a b, c, r => do check_finite (F64.mul (← a.evaluate c r) (← b.evaluate c r))
  | .divide a b, c, r => do check_finite (F64.div (← a.evaluate c r) (← b.evaluate c r))
  | .modulus a b, c, r => do check_finite (F64.fmod (← a.evaluate c r) (← b.evaluate c r))
  | .exponentiate a b, c, r => do check_finite (F64.pow (← a.evaluate c r) (← b.evaluate c r))
  | .unaryNegate a, c, r => do check_finite (F64.neg (← a.evaluate c r))

/-- Expr::constant_result: a bare literal is returned unchecked;
anything else is evaluated against the empty column set at row 1, with
an evaluation error converted (by Result::ok) into None. -/
def Expr.constant_result : Expr → Option F64
  | .number n => some (.fin n)
  | e => (e.evaluate [] 1).toOption

/-- excel_column_name_to_index: base-26 letter index,
case-insensitive. -/
def excel_column_name_to_index (s : List Char) : Except ParseError Nat :=
  if s.all Char.isAlpha then
    .ok (s.foldl (fun sum c => sum * 26 + (c.toUpper.toNat - 'A'.toNat + 1)) 0)
  else .error .invalidColumnReference

/-- The number-collecting loop of Lexer::next_token: digits extend the
numeral, a first dot extends it, whitespace or an operator character
ends it, and anything else is an InvalidNumber error; a numeral without
any digit is also an InvalidNumber error. Returns the collected numeral
and the remaining input. -/
def lexNumber : List Char → Bool → Bool → List Char → Except ParseError (List Char × List Char)
  | [], _, has_digits, acc =>
    if has_digits then .ok (acc.reverse, []) else .error .invalidNumber
  | d :: r, has_dot, has_digits, acc =>
    if d.isDigit then lexNumber r has_dot true (d :: acc)
    else if d = '.' && !has_dot then lexNumber r true has_digits (d :: acc)
    else if d.isWhitespace || is_operator d then
      (if has_digits then .ok (acc.reverse, d :: r) else .error .invalidNumber)
    else .error .invalidNumber

/-- The name-collecting loop of the column-title branch of
Lexer::next_token: backslash escapes the next character, an unescaped at
sign ends the name, and the end of input also ends the name (the source
loop just stops; a backslash directly at the end of input makes the
source unwrap a None, a panic, modelled here as ending the name -
no claim reaches that corner). Returns the name and the remaining
input. -/
def readAtName : List Char → List Char × List Char
  | [] => ([], [])
  | '\\' :: [] => ([], [])
  | '\\' :: c :: rest =>
    match readAtName rest with
    | (n, r) => (c :: n, r)
  | '@' :: rest => ([], rest)
  | c :: rest =>
    match readAtName rest with
    | (n, r) => (c :: n, r)

/-- Lexer::next_token (the whitespace skip included). Column references
are resolved against the datasheet for the title form. -/
def next_token (cs : List Char) (ds : Datasheet) : Except ParseError (Token × List Char) :=
  match cs.dropWhile Char.isWhitespace with
  | [] => .ok (.eof, [])
  | '+' :: r => .ok (.plus, r)
  | '-' :: r => .ok (.minus, r)
  | '*' :: r => .ok (.star, r)
  | '/' :: r => .ok (.slash, r)
  | '%' :: r => .ok (.percent, r)
  | '^' :: r => .ok (.caret, r)
  | '(' :: r => .ok (.lparen, r)
  | ')' :: r => .ok (.rparen, r)
  | '#' :: r =>
    let index_str := r.takeWhile (fun d => d.isDigit || d.isAlpha)
    let r2 := r.drop index_str.length
    if index_str.isEmpty then .error .invalidColumnReference
    else if index_str.headD ' ' |>.isAlpha then
      (excel_column_name_to_index index_str).map (fun i => (.column i, r2))
    else if index_str.all Char.isDigit then .ok (.column (digitsToNat index_str), r2)
    else .error .invalidColumnReference
  | '@' :: r =>
    match readAtName r with
    | (name, r2) =>
      if name.isEmpty then .error .invalidColumnReference
      else
        match ds.get_column_index (String.mk name) with
        | none => .error .invalidColumnReference
        | some i => .ok (.column (i + 1), r2)
  | c :: r =>
    if c.isDigit || c = '.' then
      match lexNumber r (c = '.') c.isDigit [c] with
      | .error e => .error e
      | .ok (num_str, r2) =>
        match parseF64 num_str with
        | some n => .ok (.number n, r2)
        | none => .error .invalidNumber
    else .error (.invalidCharacter c)

mutual

/-- Parser::parse_factor (fuelled recursive descent; the fuel chosen by
compile_expression below is always sufficient, one unit per nesting
level and loop iteration). -/
def parse_factor : Nat → Token → List Char → Datasheet → Except ParseError (Expr × Token × List Char)
  | 0, _, _, _ => .error .unexpectedToken
  | fuel + 1, tok, rest, ds =>
    if tok = .minus then do
      let (t1, r1) ← next_token rest ds
      let (inner, t2, r2) ← parse_factor fuel t1 r1 ds
      .ok (.unaryNegate inner, t2, r2)
    else
      match tok with
      | .number n => do
        let (t, r) ← next_token rest ds
        .ok (.number n, t, r)
      | .column i => do
        let (t, r) ← next_token rest ds
        .ok (.column i, t, r)
      | .lparen => do
        let (t1, r1) ← next_token rest ds
        let (e, t2, r2) ← parse_expression fuel t1 r1 ds
        match t2 with
        | .rparen =>
          (match next_token r2 ds with
           | .error _ => .error .mismatchedParentheses
           | .ok (t3, r3) => .ok (e, t3, r3))
        | _ => .error .mismatchedParentheses
      | _ => .error .unexpectedToken

/-- Parser::parse_exponent: a factor followed by the caret loop (the
source builds the tree left-associatively). -/
def parse_exponent : Nat → Token → List Char → Datasheet → Except ParseError (Expr × Token × List Char)
  | 0, _, _, _ => .error .unexpectedToken
  | fuel + 1, tok, rest, ds => do
    let (e, t, r) ← parse_factor fuel tok rest ds
    exponent_loop fuel e t r ds

/-- The while-loop of Parser::parse_exponent. -/
def exponent_loop : Nat → Expr → Token → List Char → Datasheet → Except ParseError (Expr × Token × List Char)
  | 0, _, _, _, _ => .error .unexpectedToken
  | fuel + 1, e, tok, rest, ds =>
    match tok with
    | .caret => do
      let (t1, r1) ← next_token rest ds
      let (rhs, t2, r2) ← parse_factor fuel t1 r1 ds
      exponent_loop fuel (.exponentiate e rhs) t2 r2 ds
    | _ => .ok (e, tok, rest)

/-- Parser::parse_term. -/
def parse_term : Nat → Token → List Char → Datasheet → Except ParseError (Expr × Token × List Char)
  | 0, _, _, _ => .error .unexpectedToken
  | fuel + 1, tok, rest, ds => do
    let (e, t, r) ← parse_exponent fuel tok rest ds
    term_loop fuel e t r ds

/-- The while-loop of Parser::parse_term. -/
def term_loop : Nat → Expr → Token → List Char → Datasheet → Except ParseError (Expr × Token × List Char)
  | 0, _, _, _, _ => .error .unexpectedToken
  | fuel + 1, e, tok, rest, ds =>
    match tok with
    | .star => do
      let (t1, r1) ← next_token rest ds
      let (rhs, t2, r2) ← parse_exponent fuel t1 r1 ds
      term_loop fuel (.multiply e rhs) t2 r2 ds
    | .slash => do
      let (t1, r1) ← next_token rest ds
      let (rhs, t2, r2) ← parse_exponent fuel t1 r1 ds
      term_loop fuel (.divide e rhs) t2 r2 ds
    | .percent => do
      let (t1, r1) ← next_token rest ds
      let (rhs, t2, r2) ← parse_exponent fuel t1 r1 ds
      term_loop fuel (.modulus e rhs) t2 r2 ds
    | _ => .ok (e, tok, rest)

/-- Parser::parse_expression. -/
def parse_expression : Nat → Token → List Char → Datasheet → Except ParseError (Expr × Token × List Char)
  | 0, _, _, _ => .error .unexpectedToken
  | fuel + 1, tok, rest, ds => do
    let (e, t, r) ← parse_term fuel tok rest ds
    expression_loop fuel e t r ds

/-- The while-loop of Parser::parse_expression. -/
def expression_loop : Nat → Expr → Token → List Char → Datasheet → Except ParseError (Expr × Token × List Char)
  | 0, _, _, _, _ => .error .unexpectedToken
  | fuel + 1, e, tok, rest, ds =>
    match tok with
    | .plus => do
      let (t1, r1) ← next_token rest ds
      let (rhs, t2, r2) ← parse_term fuel t1 r1 ds
      expression_loop fuel (.add e rhs) t2 r2 ds
    | .minus => do
      let (t1, r1) ← next_token rest ds
      let (rhs, t2, r2) ← parse_term fuel t1 r1 ds
      expression_loop fuel (.subtract e rhs) t2 r2 ds
    | _ => .ok (e, tok, rest)

end

/-- compile_expression: lex the first token, run the recursive descent,
and require the input to be exhausted. -/
def compile_expression (s : List Char) (ds : Datasheet) : Except ParseError Expr := do
  let (tok, rest) ← next_token s ds
  let (e, t2, _r2) ← parse_expression (4 * s.length + 16) tok rest ds
  if t2 = .eof then .ok e else .error .unexpectedToken

/-- expression_is_constant: a purely syntactic check for the absence of
column references. -/
def expression_is_constant (s : List Char) : Bool :=
  !(s.contains '#') && !(s.contains '@')

/-- The closure returned by wrap_expr: empty column set gives an empty
result, ragged columns give ColumnsDifferentLengths, otherwise the
expression is evaluated row by row (first error wins). -/
def wrap_expr_run (e : Expr) (ds : Datasheet) : Except EvaluationError (List F64) :=
  if ds.columns.isEmpty then .ok []
  else
    let num_rows := (ds.columns.headD []).length
    if ¬ ds.columns.all (fun c => c.length = num_rows) then
      .error .columnsDifferentLengths
    else (List.range num_rows).mapM (fun row => e.evaluate ds.columns row)

/-- What process_column_expressions_on_datasheet can come to: a new
datasheet, a compile error, an evaluation error - or the Rust panic
raised by unwrapping the None that Expr::constant_result returns when
the constant evaluation failed. -/
inductive ExprOutcome where
  | ok (ds : Datasheet)
  | parseError (e : ParseError)
  | evalError (e : EvaluationError)
  | panicked
deriving DecidableEq, Repr

/-- One column of process_column_expressions_on_datasheet: the constant
path evaluates once and broadcasts (unwrap of None is the panic), the
column path evaluates row-wise. -/
def process_one_expression (ds : Datasheet) (expr_str : List Char) (e : Expr) :
    Except (Option EvaluationError) (List F64) :=
  if expression_is_constant expr_str then
    match e.constant_result with
    | none => .error none
    | some v => .ok (List.replicate (ds.columns.headD []).length v)
  else
    match wrap_expr_run e ds with
    | .error err => .error (some err)
    | .ok vs => .ok vs

/-- process_column_expressions_on_datasheet: compile both expressions
against the input sheet, evaluate x then y, and build the two-column
result sheet named after the expression strings. -/
def process_column_expressions_on_datasheet (ds : Datasheet) (xexpr_str yexpr_str : List Char) :
    ExprOutcome :=
  match compile_expression xexpr_str ds with
  | .error e => .parseError e
  | .ok xexpr =>
    match compile_expression yexpr_str ds with
    | .error e => .parseError e
    | .ok yexpr =>
      match process_one_expression ds xexpr_str xexpr with
      | .error none => .panicked
      | .error (some err) => .evalError err
      | .ok xresults =>
        match process_one_expression ds yexpr_str yexpr with
        | .error none => .panicked
        | .error (some err) => .evalError err
        | .ok yresults =>
          .ok (Datasheet.new [String.mk xexpr_str, String.mk yexpr_str]
                [xresults, yresults] none)

/-! ## Specification predicates and concrete fixtures -/

/-- Decidable equality for Except results, used to evaluate the
embedding on concrete inputs. -/
instance {ε α : Type} [DecidableEq ε] [DecidableEq α] : DecidableEq (Except ε α) :=
  fun x y =>
    match x, y with
    | .ok a, .ok b =>
      if h : a = b then .isTrue (by rw [h]) else .isFalse (by simp [h])
    | .error a, .error b =>
      if h : a = b then .isTrue (by rw [h]) else .isFalse (by simp [h])
    | .ok _, .error _ => .isFalse (by simp)
    | .error _, .ok _ => .isFalse (by simp)

/-- Bool-valued non-decreasing check under the f64 comparison; the
sortedness invariant of the spec data model. -/
def nondecrF64 : List F64 → Bool
  | [] => true
  | [_] => true
  | a :: b :: l => F64.le a b && nondecrF64 (b :: l)

/-- Full agreement of the compared positions: the non-dump characters of
the request and of the stored string agree at every position up to the
shorter of the two. This is what is proved equivalent to match_split
accepting. -/
def matchAgrees (o s : List Char) : Bool :=
  ((o.filter (fun c => !c.isUpper)).zip (s.filter (fun c => !c.isUpper))).all
    (fun p => p.1 = p.2)

/-- Argument validity of a parsed operator: the only operator with a
numeric argument is Derivation, whose window must be positive. -/
def opArgsValid : Operator → Prop
  | .transform (.Derivation w) => 0 < w
  | _ => True

/-- A rational is a decimal fraction: some power of ten clears its
denominator. Every operator argument parsed from the grammar is one. -/
def IsDec (q : ℚ) : Prop := ∃ k : Nat, (q * (10 : ℚ) ^ k).den = 1

/-- The raw Op a validated operator prints and re-parses as. -/
def opRaw : Operator → Op
  | .transform .CDF => ⟨'c', []⟩
  | .transform (.Derivation w) => ⟨'d', [w]⟩
  | .transform .Integral => ⟨'i', []⟩
  | .transform .Merge => ⟨'m', []⟩
  | .transform .Rotate => ⟨'r', []⟩
  | .transform .Step => ⟨'s', []⟩
  | .transform .Sort => ⟨'o', []⟩
  | .dump (.DataSheet c) => ⟨c, []⟩
  | .dump .Plotter => ⟨'P', []⟩

/-- The invariant every operator produced by parsing satisfies: a
Derivation window is a positive decimal fraction, a datasheet dump code
is C or O. -/
def opWF : Operator → Prop
  | .transform (.Derivation w) => 0 < w ∧ IsDec w
  | .dump (.DataSheet c) => c = 'C' ∨ c = 'O'
  | _ => True

/-- The lower-case ASCII alphabet, the candidate transform opcodes. -/
def lowercaseLetters : List Char :=
  ['a','b','c','d','e','f','g','h','i','j','k','l','m',
   'n','o','p','q','r','s','t','u','v','w','x','y','z']

/-- The ten decimal digit characters. -/
def digitChars : List Char := ['0','1','2','3','4','5','6','7','8','9']

/-- Fixture: a one-column sheet with rows 1 and 3. -/
def dsC2 : Datasheet := Datasheet.new ["1"] [[F64.fin 1, F64.fin 3]] none

/-- Fixture: x = [1, 2] (already ascending), y = [3, 1] (descending). -/
def dsC3 : Datasheet :=
  Datasheet.new ["x", "y"] [[F64.fin 1, F64.fin 2], [F64.fin 3, F64.fin 1]] none

/-- Fixture: a sheet whose y column holds a NaN. -/
def dsC6nan : Datasheet :=
  Datasheet.new ["x", "y"] [[F64.fin 0], [F64.nan]] none

/-- Fixture: x = [1, 2, 3], y = [10, 12, 15] (the Step example of the
spec). -/
def dsStep : Datasheet :=
  Datasheet.new ["x", "y"]
    [[F64.fin 1, F64.fin 2, F64.fin 3], [F64.fin 10, F64.fin 12, F64.fin 15]] none

/-- Fixture: a two-row sheet with finite y = [2, 1]. -/
def dsCDF : Datasheet :=
  Datasheet.new ["x", "y"] [[F64.fin 0, F64.fin 0], [F64.fin 2, F64.fin 1]] none

/-! ## Theorems -/

/-- Claim C3 (code_bug): the spec invariant says a column marked sorted
must be non-decreasing and that every operator that reorders a column
must reset the flag; but RotateOperator::apply (via
Datasheet::exchange_column) swaps the column data without touching
sorted_by, so after Sort then Rotate the sheet still claims column 0
sorted while that column now holds the old y data [3, 1], which is
decreasing. Downstream this stale flag makes Datasheet::sort a no-op
and corrupts Derivation and Integral results. -/
theorem C3_rotate_breaks_sorted_invariant :
    ((dsC3.sort 0).bind (fun d => RotateOperator.apply d 0 1)).map
      (fun d => (d.sorted_by, d.columns.getD 0 [], nondecrF64 (d.columns.getD 0 []))) =
    .ok (some 0, [F64.fin 3, F64.fin 1], false) := by
  with_unfolding_all decide

/-- Claim C2 (code_bug): for the constant expression 1/0 the division
produces a non-finite value and check_finite correctly raises
NonFiniteNumber inside Expr::evaluate, but Expr::constant_result
discards the error with Result::ok and
process_column_expressions_on_datasheet unwraps the resulting None - a
panic, not the NonFiniteNumber error the spec requires. The
column-referencing expression #1/0 does abort with NonFiniteNumber, as
claimed. -/
theorem C2_constant_divzero_panics :
    process_column_expressions_on_datasheet dsC2 ['1', '/', '0'] ['#', '1'] =
      .panicked ∧
    process_column_expressions_on_datasheet dsC2 ['#', '1', '/', '0'] ['#', '1'] =
      .evalError .nonFiniteNumber := by
  constructor
  · with_unfolding_all decide
  · with_unfolding_all decide

/-- Claim C1 (counterexample): with the monotonic cache ["c", "cod9"]
and the request "cod5", the spec match lengths are 1 for "c" and 3 for
"cod9", so the claimed greatest-match-length rule selects "cod9"; the
code instead scans most-recent-first for a full-agreement match and
selects "c" with skip 1, because "cod9" disagrees at its fourth
compared character and yields no match at all. -/
theorem C1_counterexample :
    Datasheet.read_lnk_source ['c','o','d','5'] [['c'], ['c','o','d','9']] "orig" =
      .fromCache ['c'] 1 ∧
    specMatchLength ['c','o','d','5'] ['c','o','d','9'] = 3 ∧
    specMatchLength ['c','o','d','5'] ['c'] = 1 := by
  with_unfolding_all decide

/-- Claim C7 (counterexample): the request "P" has no non-dump
characters, so every stored string is compared over zero positions and
match_split returns a usable match of length 0; the driver then loads
the most recently stored cache with skip 0 instead of falling back to
the original source path, although the greatest spec match length over
the store is 0. -/
theorem C7_counterexample :
    Datasheet.read_lnk_source ['P'] [['c','o']] "orig" = .fromCache ['c','o'] 0 ∧
    specMatchLength ['P'] ['c','o'] = 0 := by
  with_unfolding_all decide

/-- Claim C4 (counterexample): the set of lower-case opcodes accepted by
Transform::from_op is exactly c, d, i, m, o, r, s - CDF, Derivation,
Integral, Merge, Sort, Rotate, Step. In particular the opcodes a, f and
u are rejected: there is no Average, FilterFinite or Unique operator in
the library. -/
theorem C4_counterexample :
    (lowercaseLetters.filter (fun c => (Transform.from_op ⟨c, [1]⟩).isOk)) =
      ['c','d','i','m','o','r','s'] ∧
    (Transform.from_op ⟨'a', [1]⟩).isOk = false ∧
    (Transform.from_op ⟨'f', [1]⟩).isOk = false ∧
    (Transform.from_op ⟨'u', [1]⟩).isOk = false := by
  with_unfolding_all decide

/-- Claim C8 (counterexample): the string "c5" passes an argument to
CDF, which takes none - a wrong argument arity - yet it parses
successfully, because Transform::from_op simply ignores surplus
arguments. -/
theorem C8_counterexample :
    OpSeq.new ['c', '5'] = .ok [.transform .CDF] := by
  with_unfolding_all decide

/-- Claim C6 (counterexample): the claim quantifies over every sheet
with a non-empty y column (precondition none), but CDFOperator::apply
rejects a y column containing a non-finite value, so on y = [NaN] it
returns an error instead of the described CDF sheet. -/
theorem C6_counterexample :
    CDFOperator.apply dsC6nan 0 1 = .error "y column contains INF/NAN." := by
  with_unfolding_all decide

/-- Claim C9 (confirmed): Sort is idempotent. If the x column is finite,
applying the Sort operator twice equals applying it once: the first
application records sorted_by = x, and Datasheet::sort early-returns
unchanged whenever sorted_by already names the requested column (and
when the sheet was already marked sorted by x, both sides are the
original sheet). -/
theorem C9_sort_idempotent (ds : Datasheet) (x y : Nat)
    (h : Datasheet.is_sortable (ds.columns.getD x []) = true) :
    (SortOperator.apply ds x y).bind (fun d => SortOperator.apply d x y) =
      SortOperator.apply ds x y := by
  unfold SortOperator.apply
  unfold Datasheet.sort
  rw [List.getD_eq_getElem?_getD] at h
  by_cases hs : ds.sorted_by = some x
  · simp [hs, Except.bind]
  · simp [hs, h, Except.bind]

/-- Witness for C9 at the concrete sheet dsC3 with x = 0. -/
theorem C9_witness :
    (SortOperator.apply dsC3 0 1).bind (fun d => SortOperator.apply d 0 1) =
      SortOperator.apply dsC3 0 1 :=
  C9_sort_idempotent dsC3 0 1 (by with_unfolding_all decide)

/-- Claim C10 (confirmed): for columns of length N the Step operator
produces N - 1 rows with y[i+1] - y[i] as the new y values, and the new
x column is the old one with its first element removed: for every row,
the new x value is the old x value at index i + 1. -/
theorem C10_step (ds : Datasheet) (x y N : Nat) (d : F64)
    (hx : (ds.columns.getD x []).length = N)
    (hy : (ds.columns.getD y []).length = N)
    (hN : 1 ≤ N) :
    ∃ xs ys,
      StepOperator.apply ds x y =
        .ok (Datasheet.new
              [ds.headers.getD x "", (ds.headers.getD y "") ++ ":Step"]
              [xs, ys] none) ∧
      xs.length = N - 1 ∧ ys.length = N - 1 ∧
      (∀ i, i < N - 1 →
        xs.getD i d = (ds.columns.getD x []).getD (i + 1) d ∧
        ys.getD i d = F64.sub ((ds.columns.getD y []).getD (i + 1) d)
                              ((ds.columns.getD y []).getD i d)) := by
  simp only [List.getD_eq_getElem?_getD] at hx hy
  refine ⟨(ds.columns.getD x []).drop 1,
          List.zipWith (fun a b => F64.sub b a) (ds.columns.getD y [])
            ((ds.columns.getD y []).drop 1), ?_, ?_, ?_, ?_⟩
  · rfl
  · simp only [List.getD_eq_getElem?_getD]
    rw [List.length_drop, hx]
  · simp only [List.getD_eq_getElem?_getD]
    rw [List.length_zipWith, List.length_drop, hy]
    omega
  · intro i hi
    constructor
    · simp only [List.getD_eq_getElem?_getD]
      rw [List.getElem?_drop, Nat.add_comm 1 i]
    · simp only [List.getD_eq_getElem?_getD]
      rw [List.getElem?_zipWith', List.getElem?_drop, Nat.add_comm 1 i,
          List.getElem?_eq_getElem (by omega : i < (ds.columns[y]?.getD []).length),
          List.getElem?_eq_getElem (by omega : i + 1 < (ds.columns[y]?.getD []).length)]
      simp

/-- Witness for C10 at the spec example x = [1,2,3], y = [10,12,15]. -/
theorem C10_witness :
    ∃ xs ys,
      StepOperator.apply dsStep 0 1 =
        .ok (Datasheet.new
              [dsStep.headers.getD 0 "", (dsStep.headers.getD 1 "") ++ ":Step"]
              [xs, ys] none) ∧
      xs.length = 2 ∧ ys.length = 2 ∧
      (∀ i, i < 2 →
        xs.getD i F64.nan = (dsStep.columns.getD 0 []).getD (i + 1) F64.nan ∧
        ys.getD i F64.nan =
          F64.sub ((dsStep.columns.getD 1 []).getD (i + 1) F64.nan)
                  ((dsStep.columns.getD 1 []).getD i F64.nan)) :=
  C10_step dsStep 0 1 3 F64.nan (by with_unfolding_all decide)
    (by with_unfolding_all decide) (by decide)

/-- insertSorted permutes the cons. -/
theorem insertSorted_perm (le : α → α → Bool) (a : α) :
    ∀ l : List α, (insertSorted le a l).Perm (a :: l)
  | [] => by simp [insertSorted]
  | b :: t => by
    unfold insertSorted
    by_cases h : le a b = true
    · simp [h]
    · rw [if_neg h]
      exact ((insertSorted_perm le a t).cons b).trans (List.Perm.swap a b t)

/-- insertionSortBy permutes its input. -/
theorem insertionSortBy_perm (le : α → α → Bool) :
    ∀ l : List α, (insertionSortBy le l).Perm l
  | [] => by simp [insertionSortBy]
  | a :: t =>
    (insertSorted_perm le a (insertionSortBy le t)).trans
      ((insertionSortBy_perm le t).cons a)

/-- On finite values the le comparison is total. -/
theorem F64.le_total_finite {a b : F64} (ha : a.isFinite = true)
    (hb : b.isFinite = true) (h : F64.le a b = false) : F64.le b a = true := by
  cases a with
  | fin qa =>
    cases b with
    | fin qb =>
      simp [F64.le] at h ⊢
      exact le_of_lt h
    | posInf => simp [F64.isFinite] at hb
    | negInf => simp [F64.isFinite] at hb
    | nan => simp [F64.isFinite] at hb
  | posInf => simp [F64.isFinite] at ha
  | negInf => simp [F64.isFinite] at ha
  | nan => simp [F64.isFinite] at ha

/-- Inserting a finite value into a non-decreasing list of finite
values keeps it non-decreasing. -/
theorem nondecr_insertSorted :
    ∀ (l : List F64) (a : F64), a.isFinite = true →
      (∀ b ∈ l, b.isFinite = true) → nondecrF64 l = true →
      nondecrF64 (insertSorted F64.le a l) = true
  | [], a, _, _, _ => by simp [insertSorted, nondecrF64]
  | b :: t, a, hfa, hfl, h => by
    unfold insertSorted
    by_cases hab : F64.le a b = true
    · rw [if_pos hab]
      unfold nondecrF64
      simp [hab, h]
    · have hba : F64.le b a = true :=
        F64.le_total_finite hfa (hfl b (by simp)) (by simpa using hab)
      rw [if_neg hab]
      cases t with
      | nil =>
        simp [insertSorted, nondecrF64, hba]
      | cons c t' =>
        have hh : F64.le b c = true ∧ nondecrF64 (c :: t') = true := by
          simpa [nondecrF64] using h
        have ih := nondecr_insertSorted (c :: t') a hfa
          (fun x hx => hfl x (by simp [hx])) hh.2
        by_cases hac : F64.le a c = true
        · rw [insertSorted] at ih ⊢
          rw [if_pos hac] at ih ⊢
          unfold nondecrF64
          simp [hba, ih]
        · rw [insertSorted] at ih ⊢
          rw [if_neg hac] at ih ⊢
          unfold nondecrF64
          simp [hh.1, ih]

/-- Sorting a list of finite values yields a non-decreasing list. -/
theorem nondecr_insertionSortBy :
    ∀ l : List F64, (∀ b ∈ l, b.isFinite = true) →
      nondecrF64 (insertionSortBy F64.le l) = true
  | [], _ => by simp [insertionSortBy, nondecrF64]
  | a :: t, hf => by
    unfold insertionSortBy
    refine nondecr_insertSorted _ a (hf a (by simp)) ?_
      (nondecr_insertionSortBy t (fun x hx => hf x (by simp [hx])))
    intro b hb
    exact hf b (by
      have := (insertionSortBy_perm F64.le t).mem_iff.mp hb
      simp [this])

/-- Claim C6 (corrected: the y column must in addition be finite, since
CDFOperator::apply rejects non-finite y values - the claimed
precondition none is wrong, see the counterexample): for a finite
non-empty y column of length N, CDF produces a sheet headed by the old
y-name and CDF whose new x column is the y data sorted ascending
(non-decreasing and a permutation of y) and whose new y column is
[1/N, 2/N, ..., N/N]. -/
theorem C6_cdf (ds : Datasheet) (x y N : Nat)
    (hfin : (ds.columns.getD y []).all F64.isFinite = true)
    (hlen : (ds.columns.getD y []).length = N) (_hN : 1 ≤ N) :
    ∃ xs,
      CDFOperator.apply ds x y =
        .ok (Datasheet.new [ds.headers.getD y "", "CDF"]
          [xs, (List.range N).map (fun i => F64.fin (((i : ℚ) + 1) / (N : ℚ)))]
          (some x)) ∧
      nondecrF64 xs = true ∧ xs.Perm (ds.columns.getD y []) := by
  refine ⟨insertionSortBy F64.le (ds.columns.getD y []), ?_, ?_, ?_⟩
  · unfold CDFOperator.apply
    have hg : Datasheet.is_sortable (ds.columns.getD y []) = true := hfin
    have hlen2 : (insertionSortBy F64.le (ds.columns.getD y [])).length = N :=
      (insertionSortBy_perm F64.le (ds.columns.getD y [])).length_eq.trans hlen
    simp only [hg, hlen2, not_true_eq_false, if_false]
    rfl
  · exact nondecr_insertionSortBy _ (List.all_eq_true.mp hfin)
  · exact insertionSortBy_perm F64.le _

/-- Witness for C6 at a concrete sheet with y = [2, 1], N = 2. -/
theorem C6_witness :
    ∃ xs,
      CDFOperator.apply dsCDF 0 1 =
        .ok (Datasheet.new [dsCDF.headers.getD 1 "", "CDF"]
          [xs, (List.range 2).map (fun i => F64.fin (((i : ℚ) + 1) / (2 : ℚ)))]
          (some 0)) ∧
      nondecrF64 xs = true ∧ xs.Perm (dsCDF.columns.getD 1 []) :=
  C6_cdf dsCDF 0 1 2 (by with_unfolding_all decide) (by with_unfolding_all decide)
    (by decide)

/-- The fold step keeps None forever. -/
theorem matchStep_foldl_none : ∀ ps : List ((Char × Nat) × Char),
    List.foldl matchStep none ps = none
  | [] => rfl
  | p :: ps => by
    rw [List.foldl_cons]
    exact matchStep_foldl_none ps

/-- Projecting the characters out of the indexed-and-filtered request
stream gives the plain filtered request. -/
theorem zip_filter_fst :
    ∀ (l : List Char) (ns : List Nat), l.length ≤ ns.length →
      ((l.zip ns).filter (fun p => !p.1.isUpper)).map Prod.fst =
        l.filter (fun c => !c.isUpper)
  | [], _, _ => by simp
  | c :: l, [], h => by simp at h
  | c :: l, n :: ns, h => by
    simp only [List.zip_cons_cons, List.filter_cons]
    by_cases hc : c.isUpper
    · simp [hc, zip_filter_fst l ns (by simpa using h)]
    · simp [hc, zip_filter_fst l ns (by simpa using h)]

/-- A request and a stored string that disagree at their first compared
non-dump character produce no match at all. -/
theorem match_split_none_of_first_mismatch (o s : List Char) (a b : Char)
    (as bs : List Char)
    (ho : o.filter (fun c => !c.isUpper) = a :: as)
    (hs : s.filter (fun c => !c.isUpper) = b :: bs)
    (hab : a ≠ b) : OpSeq.match_split o s = none := by
  unfold OpSeq.match_split
  have hzf := zip_filter_fst o (List.range o.length) (by simp)
  cases hoi : (o.zip (List.range o.length)).filter (fun p => !p.1.isUpper) with
  | nil =>
    rw [hoi] at hzf
    rw [ho] at hzf
    simp at hzf
  | cons p t =>
    rw [hoi] at hzf
    rw [ho] at hzf
    simp only [List.map_cons, List.cons.injEq] at hzf
    rw [hs]
    simp only [List.zip_cons_cons, List.foldl_cons]
    have hstep : matchStep (some 0) (p, b) = none := by
      unfold matchStep
      simp [hzf.1, hab]
    rw [hstep, matchStep_foldl_none]
    rfl

/-- Claim C7 (corrected: a zero-length match CAN be used when nothing is
compared, see the counterexample): whenever every stored prefix
disagrees with the request at its first compared non-dump character -
so the greatest spec match length over the store is 0 and at least one
pair is compared everywhere - match_split rejects them all and
Datasheet::read falls back to the original source path recorded in the
cache header. -/
theorem C7_amended (opseq_str : List Char) (cache : List (List Char)) (p : String)
    (h : ∀ s ∈ cache, ∃ a as b bs,
        opseq_str.filter (fun c => !c.isUpper) = a :: as ∧
        s.filter (fun c => !c.isUpper) = b :: bs ∧ a ≠ b) :
    Datasheet.read_lnk_source opseq_str cache p = .fromOriginal p := by
  unfold Datasheet.read_lnk_source
  have hnone : (cache.reverse).findSome? (fun s => OpSeq.match_split opseq_str s) = none := by
    rw [List.findSome?_eq_none_iff]
    intro s hs
    obtain ⟨a, as, b, bs, h1, h2, h3⟩ := h s (List.mem_reverse.mp hs)
    exact match_split_none_of_first_mismatch opseq_str s a b as bs h1 h2 h3
  rw [hnone]

/-- Witness for C7: request "co" against the single stored prefix "xy"
falls back to the recorded path. -/
theorem C7_witness :
    Datasheet.read_lnk_source ['c','o'] [['x','y']] "orig" = .fromOriginal "orig" :=
  C7_amended ['c','o'] [['x','y']] "orig" (by
    intro s hs
    simp only [List.mem_singleton] at hs
    subst hs
    exact ⟨'c', ['o'], 'x', ['y'], by decide, by decide, by decide⟩)

/-- A successful findSome? splits its list at the witness, everything
before it failing. -/
theorem findSome?_some_split {α β : Type} :
    ∀ (l : List α) (f : α → Option β) (b : β),
      l.findSome? f = some b →
      ∃ pre x post, l = pre ++ x :: post ∧ f x = some b ∧ ∀ t ∈ pre, f t = none
  | [], _, _, h => by simp at h
  | a :: l, f, b, h => by
    rw [List.findSome?_cons] at h
    cases hfa : f a with
    | some v =>
      rw [hfa] at h
      refine ⟨[], a, l, by simp, ?_, by simp⟩
      rw [hfa]
      exact h
    | none =>
      rw [hfa] at h
      obtain ⟨pre, x, post, hl, hx, hpre⟩ := findSome?_some_split l f b h
      refine ⟨a :: pre, x, post, by simp [hl], hx, ?_⟩
      intro t ht
      rcases List.mem_cons.mp ht with h1 | h2
      · rw [h1]; exact hfa
      · exact hpre t h2

/-- A successful findSome? over the reverse splits the original list at
the witness, everything after it failing: the most recent match wins. -/
theorem findSome?_rev_split {α β : Type} (l : List α) (f : α → Option β) (b : β)
    (h : l.reverse.findSome? f = some b) :
    ∃ pre x post, l = pre ++ x :: post ∧ f x = some b ∧ ∀ t ∈ post, f t = none := by
  obtain ⟨pre, x, post, hl, hx, hpre⟩ := findSome?_some_split l.reverse f b h
  refine ⟨post.reverse, x, pre.reverse, ?_, hx, ?_⟩
  · have := congrArg List.reverse hl
    simpa [List.reverse_append] using this
  · intro t ht
    exact hpre t (List.mem_reverse.mp ht)

/-- The fold of match_split succeeds exactly when every compared pair
agrees. -/
theorem matchStep_foldl_isSome : ∀ (ps : List ((Char × Nat) × Char)) (k : Nat),
    (List.foldl matchStep (some k) ps).isSome = ps.all (fun p => p.1.1 = p.2)
  | [], _ => rfl
  | p :: ps, k => by
    rw [List.foldl_cons, List.all_cons]
    by_cases h : p.1.1 = p.2
    · have hstep : matchStep (some k) p = some (p.1.2 + 1) := by
        unfold matchStep
        simp [h]
      rw [hstep]
      simp [h, matchStep_foldl_isSome ps (p.1.2 + 1)]
    · have hstep : matchStep (some k) p = none := by
        unfold matchStep
        simp [h]
      rw [hstep, matchStep_foldl_none]
      simp [h]

/-- Pairing through the first projection commutes with zip for the all
check. -/
theorem zip_map_fst_all :
    ∀ (xs : List (Char × Nat)) (ys : List Char),
      (xs.zip ys).all (fun p => p.1.1 = p.2) =
        ((xs.map Prod.fst).zip ys).all (fun p => p.1 = p.2)
  | [], _ => rfl
  | _ :: _, [] => rfl
  | x :: xs, y :: ys => by
    simp only [List.map_cons, List.zip_cons_cons, List.all_cons]
    rw [zip_map_fst_all xs ys]

/-- match_split carries the stored string through unchanged. -/
theorem match_split_some_fst (o s : List Char) (r : List Char × Nat)
    (h : OpSeq.match_split o s = some r) : r.1 = s := by
  simp only [OpSeq.match_split] at h
  cases hfold : ((((o.zip (List.range o.length)).filter (fun p => !p.1.isUpper)).zip
      (s.filter (fun c => !c.isUpper))).foldl matchStep (some 0)) with
  | none => rw [hfold] at h; simp at h
  | some n => rw [hfold] at h; simp at h; rw [← h]

/-- match_split accepts exactly when all compared non-dump positions
agree. -/
theorem match_split_isSome_iff (o s : List Char) :
    (OpSeq.match_split o s).isSome = matchAgrees o s := by
  simp only [OpSeq.match_split, matchAgrees]
  rw [Option.isSome_map']
  rw [matchStep_foldl_isSome]
  rw [zip_map_fst_all]
  rw [zip_filter_fst o (List.range o.length) (by simp)]

/-- Claim C1 (corrected: selection is not by greatest partial match
length, see the counterexample): cache lookup scans the stored strings
most-recently-stored first and selects the first one all of whose
compared non-dump characters agree with the request (a stored string
disagreeing at any compared position yields no match at all); when the
lookup fails, no stored string fully agrees. The claimed example does
hold: "co" against the request "cod5" matches with length 2. -/
theorem C1_amended (opseq_str : List Char) (cache : List (List Char)) :
    (∀ s n,
      (cache.reverse).findSome? (fun t => OpSeq.match_split opseq_str t) = some (s, n) →
      ∃ pre post, cache = pre ++ s :: post ∧
        OpSeq.match_split opseq_str s = some (s, n) ∧
        ∀ t ∈ post, OpSeq.match_split opseq_str t = none) ∧
    ((cache.reverse).findSome? (fun t => OpSeq.match_split opseq_str t) = none →
      ∀ s ∈ cache, OpSeq.match_split opseq_str s = none) ∧
    (∀ s, (OpSeq.match_split opseq_str s).isSome = matchAgrees opseq_str s) ∧
    OpSeq.match_split ['c','o','d','5'] ['c','o'] = some (['c','o'], 2) := by
  refine ⟨?_, ?_, ?_, ?_⟩
  · intro s n h
    obtain ⟨pre, x, post, hl, hx, hpost⟩ :=
      findSome?_rev_split cache (fun t => OpSeq.match_split opseq_str t) (s, n) h
    have hxs : s = x := match_split_some_fst opseq_str x (s, n) hx
    subst hxs
    exact ⟨pre, post, hl, hx, hpost⟩
  · intro h s hs
    exact (List.findSome?_eq_none_iff.mp h) s (List.mem_reverse.mpr hs)
  · intro s
    exact match_split_isSome_iff opseq_str s
  · with_unfolding_all decide

/-- Witness for C1: in the one-entry cache ["co"], the request "cod5"
selects "co" with match length 2. -/
theorem C1_witness :
    ∃ pre post, [['c','o']] = pre ++ ['c','o'] :: post ∧
      OpSeq.match_split ['c','o','d','5'] ['c','o'] = some (['c','o'], 2) ∧
      ∀ t ∈ post, OpSeq.match_split ['c','o','d','5'] t = none :=
  (C1_amended ['c','o','d','5'] [['c','o']]).1 ['c','o'] 2 (by with_unfolding_all decide)

/-- Claim C4 (corrected: the claimed Average, FilterFinite and Unique
operators do not exist, see the counterexample): every successfully
parsed transform opcode/operator pair is one of the seven actually
implemented - c/CDF, d/Derivation, i/Integral, m/Merge, o/Sort,
r/Rotate, s/Step. -/
theorem C4_amended (c : Char) (args : List ℚ) (t : Transform)
    (h : Transform.from_op ⟨c, args⟩ = .ok t) :
    (c = 'c' ∧ t = .CDF) ∨ (∃ w, c = 'd' ∧ t = .Derivation w) ∨
    (c = 'i' ∧ t = .Integral) ∨ (c = 'm' ∧ t = .Merge) ∨
    (c = 'o' ∧ t = .Sort) ∨ (c = 'r' ∧ t = .Rotate) ∨ (c = 's' ∧ t = .Step) := by
  unfold Transform.from_op at h
  split at h
  · rename_i hop
    exact Or.inl ⟨hop, by injection h with h; exact h.symm⟩
  · rename_i hop
    cases hh : List.head? args with
    | none => rw [hh] at h; simp at h
    | some w =>
      rw [hh] at h
      simp only [DerivationOperator.new] at h
      by_cases hw : w ≤ 0
      · simp [hw, Except.map] at h
      · rw [if_neg hw] at h
        simp only [Except.map] at h
        injection h with h
        exact Or.inr (Or.inl ⟨w, hop, h.symm⟩)
  · rename_i hop
    exact Or.inr (Or.inr (Or.inl ⟨hop, by injection h with h; exact h.symm⟩))
  · rename_i hop
    exact Or.inr (Or.inr (Or.inr (Or.inl ⟨hop, by injection h with h; exact h.symm⟩)))
  · rename_i hop
    exact Or.inr (Or.inr (Or.inr (Or.inr (Or.inl ⟨hop, by injection h with h; exact h.symm⟩))))
  · rename_i hop
    exact Or.inr (Or.inr (Or.inr (Or.inr (Or.inr (Or.inl ⟨hop, by injection h with h; exact h.symm⟩)))))
  · rename_i hop
    exact Or.inr (Or.inr (Or.inr (Or.inr (Or.inr (Or.inr ⟨hop, by injection h with h; exact h.symm⟩)))))
  · simp at h

/-- Witness for C4 at the opcode c. -/
theorem C4_witness :
    ('c' = 'c' ∧ Transform.CDF = Transform.CDF) ∨
    (∃ w, 'c' = 'd' ∧ Transform.CDF = .Derivation w) ∨
    ('c' = 'i' ∧ Transform.CDF = .Integral) ∨ ('c' = 'm' ∧ Transform.CDF = .Merge) ∨
    ('c' = 'o' ∧ Transform.CDF = .Sort) ∨ ('c' = 'r' ∧ Transform.CDF = .Rotate) ∨
    ('c' = 's' ∧ Transform.CDF = .Step) :=
  C4_amended 'c' [] .CDF (by rfl)

/-- Parsing validates the Derivation window: a parsed Derivation always
has a positive window. -/
theorem derivation_window_pos (o : Op) (w : ℚ)
    (h : Transform.from_op o = .ok (.Derivation w)) : 0 < w := by
  unfold Transform.from_op at h
  split at h
  · exact absurd h (by simp)
  · cases hh : List.head? o.arg with
    | none => rw [hh] at h; simp at h
    | some w' =>
      rw [hh] at h
      simp only [DerivationOperator.new] at h
      by_cases hw : w' ≤ 0
      · simp [hw, Except.map] at h
      · rw [if_neg hw] at h
        simp only [Except.map] at h
        injection h with h
        injection h with h
        rw [← h]
        exact lt_of_not_le hw
  · exact absurd h (by simp)
  · exact absurd h (by simp)
  · exact absurd h (by simp)
  · exact absurd h (by simp)
  · exact absurd h (by simp)
  · exact absurd h (by simp)

/-- Every operator built by Operator::from_op has valid arguments. -/
theorem from_op_argsValid (o : Op) (op : Operator)
    (h : Operator.from_op o = .ok op) : opArgsValid op := by
  unfold Operator.from_op at h
  by_cases hl : o.op.isLower
  · rw [if_pos hl] at h
    cases ht : Transform.from_op o with
    | error e => rw [ht] at h; simp [Except.map] at h
    | ok t =>
      rw [ht] at h
      simp only [Except.map] at h
      injection h with h
      subst h
      cases t
      all_goals first
        | trivial
        | (rename_i w; exact derivation_window_pos o w ht)
  · rw [if_neg hl] at h
    by_cases hu : o.op.isUpper
    · rw [if_pos hu] at h
      cases hd : Dump.from_op o with
      | error e => rw [hd] at h; simp [Except.map] at h
      | ok d =>
        rw [hd] at h
        simp only [Except.map] at h
        injection h with h
        subst h
        trivial
    · rw [if_neg hu] at h
      simp at h

/-- mapM over Operator::from_op only produces operators with valid
arguments. -/
theorem mapM_from_op_argsValid :
    ∀ (raws : List Op) (ops : List Operator),
      raws.mapM Operator.from_op = .ok ops → ∀ op ∈ ops, opArgsValid op
  | [], ops, h => by
    intro op hop
    simp only [List.mapM_nil] at h
    cases h
    simp at hop
  | r :: raws, ops, h => by
    intro op hop
    rw [List.mapM_cons] at h
    cases hf : Operator.from_op r with
    | error e =>
      rw [hf] at h
      simp [Bind.bind, Except.bind] at h
    | ok op0 =>
      rw [hf] at h
      cases hm : raws.mapM Operator.from_op with
      | error e =>
        rw [hm] at h
        simp [Bind.bind, Except.bind] at h
      | ok rest =>
        rw [hm] at h
        simp only [Bind.bind, Except.bind, pure, Except.pure] at h
        injection h with h
        subst h
        rcases List.mem_cons.mp hop with h1 | h2
        · rw [h1]; exact from_op_argsValid r op0 hf
        · exact mapM_from_op_argsValid raws rest hm op h2

/-- Claim C8 (corrected: wrong arity is not always rejected - surplus
arguments are silently ignored, see the counterexample): parsing
validates eagerly what it does validate: an unknown opcode (z), a
missing required argument (d alone), and an out-of-range argument (d0,
d-1) all fail parsing; and every operator of a successfully parsed
sequence has valid arguments (every Derivation window positive), so
applying a parsed operator can only fail on data preconditions, never
on malformed arguments (the apply functions never re-examine their
arguments). -/
theorem C8_amended :
    (∀ (s : List Char) (ops : List Operator), OpSeq.new s = .ok ops →
      ∀ op ∈ ops, opArgsValid op) ∧
    (OpSeq.new ['z']).isOk = false ∧
    (OpSeq.new ['d']).isOk = false ∧
    (OpSeq.new ['d','0']).isOk = false ∧
    (OpSeq.new ['d','-','1']).isOk = false := by
  refine ⟨?_, ?_, ?_, ?_, ?_⟩
  · intro s ops h op hop
    unfold OpSeq.new at h
    cases hr : OpSeq.str_to_ops s with
    | error e =>
      rw [hr] at h
      simp [Bind.bind, Except.bind] at h
    | ok raws =>
      rw [hr] at h
      simp only [Bind.bind, Except.bind] at h
      exact mapM_from_op_argsValid raws ops h op hop
  · with_unfolding_all decide
  · with_unfolding_all decide
  · with_unfolding_all decide
  · with_unfolding_all decide

/-- Witness for C8: the parsed sequence "cod5" contains the operator
d5, whose window 5 is positive. -/
theorem C8_witness :
    opArgsValid (.transform (.Derivation 5)) :=
  C8_amended.1 ['c','o','d','5']
    [.transform .CDF, .transform .Sort, .transform (.Derivation 5)]
    (by with_unfolding_all decide)
    (.transform (.Derivation 5)) (by simp)

/-! ## Decimal rendering lemmas, toward the re-serialization round trip -/

/-- The digit-loop result does not depend on the fuel once it covers
the value. -/
theorem natDigitsGo_fuel : ∀ (f g n : Nat), n < f → n < g →
    natDigitsGo f n = natDigitsGo g n
  | f + 1, g + 1, n, hf, hg => by
    unfold natDigitsGo
    by_cases h : n < 10
    · simp [h]
    · simp only [h, if_false]
      have : n / 10 < f ∧ n / 10 < g := by omega
      rw [natDigitsGo_fuel f g (n / 10) this.1 this.2]

/-- Unfolding equation for small numbers. -/
theorem natDigits_small {n : Nat} (h : n < 10) : natDigits n = [Nat.digitChar n] := by
  unfold natDigits natDigitsGo
  simp [h]

/-- Unfolding equation for the recursive step. -/
theorem natDigits_step {n : Nat} (h : 10 ≤ n) :
    natDigits n = natDigits (n / 10) ++ [Nat.digitChar (n % 10)] := by
  unfold natDigits
  conv_lhs => rw [natDigitsGo]
  simp only [Nat.not_lt.mpr h, if_false]
  rw [natDigitsGo_fuel n (n / 10 + 1) (n / 10) (by omega) (by omega)]

/-- natDigits is never empty. -/
theorem natDigits_ne_nil (n : Nat) : natDigits n ≠ [] := by
  by_cases h : n < 10
  · rw [natDigits_small h]; simp
  · rw [natDigits_step (by omega)]; simp

/-- Every character of natDigits is one of the ten digits. -/
theorem natDigits_mem_digitChars (n : Nat) : ∀ c ∈ natDigits n, c ∈ digitChars := by
  by_cases h : n < 10
  · rw [natDigits_small h]
    intro c hc
    simp only [List.mem_singleton] at hc
    subst hc
    interval_cases n <;> decide
  · rw [natDigits_step (by omega)]
    intro c hc
    rcases List.mem_append.mp hc with h1 | h2
    · exact natDigits_mem_digitChars (n / 10) c h1
    · simp only [List.mem_singleton] at h2
      subst h2
      have : n % 10 < 10 := Nat.mod_lt n (by omega)
      generalize hm : n % 10 = m at this
      interval_cases m <;> decide
decreasing_by exact Nat.div_lt_self (by omega) (by omega)

/-- The ten digit characters are digits. -/
theorem digitChars_isDigit {c : Char} (h : c ∈ digitChars) : c.isDigit = true := by
  fin_cases h <;> decide

/-- Digit characters are not alphabetic. -/
theorem digitChars_not_alpha {c : Char} (h : c ∈ digitChars) : c.isAlpha = false := by
  fin_cases h <;> decide

/-- Digit characters are not commas, dots or signs. -/
theorem digitChars_not_special {c : Char} (h : c ∈ digitChars) :
    c ≠ ',' ∧ c ≠ '.' ∧ c ≠ '+' ∧ c ≠ '-' := by
  fin_cases h <;> exact ⟨by decide, by decide, by decide, by decide⟩

/-- Value of a digit character produced by digitChar. -/
theorem digitVal_digitChar {d : Nat} (h : d < 10) :
    digitVal (Nat.digitChar d) = d := by
  interval_cases d <;> decide

/-- Folding the digit string back gives the number. -/
theorem digitsToNat_natDigits : ∀ n : Nat, digitsToNat (natDigits n) = n := by
  intro n
  induction n using Nat.strong_induction_on with
  | _ n ih =>
    by_cases h : n < 10
    · rw [natDigits_small h]
      unfold digitsToNat
      simp [digitVal_digitChar h]
    · rw [natDigits_step (by omega)]
      unfold digitsToNat
      rw [List.foldl_append]
      have hrec := ih (n / 10) (Nat.div_lt_self (by omega) (by omega))
      unfold digitsToNat at hrec
      rw [hrec]
      simp [digitVal_digitChar (Nat.mod_lt n (by omega : 0 < 10))]
      omega

/-- Length bound for digit strings. -/
theorem natDigits_length_le : ∀ (k n : Nat), 1 ≤ k → n < 10 ^ k →
    (natDigits n).length ≤ k := by
  intro k
  induction k with
  | zero => omega
  | succ k ih =>
    intro n _ hn
    by_cases h : n < 10
    · rw [natDigits_small h]; simp
    · have hk : 1 ≤ k := by
        by_contra hk0
        have : k = 0 := by omega
        subst this
        simp [pow_succ] at hn
        omega
      rw [natDigits_step (by omega)]
      have hdiv : n / 10 < 10 ^ k := by
        rw [Nat.div_lt_iff_lt_mul (by omega : 0 < 10)]
        calc n < 10 ^ (k + 1) := hn
          _ = 10 ^ k * 10 := by rw [pow_succ]
      have := ih (n / 10) hk hdiv
      simp only [List.length_append, List.length_singleton]
      omega

/-- takeWhile and dropWhile split around the first failing element. -/
theorem takeWhile_middle {p : Char → Bool} :
    ∀ (A : List Char) (d : Char) (t : List Char),
      (∀ c ∈ A, p c = true) → p d = false →
      (A ++ d :: t).takeWhile p = A ∧ (A ++ d :: t).dropWhile p = d :: t
  | [], d, t, _, hd => by simp [List.takeWhile, List.dropWhile, hd]
  | a :: A, d, t, hA, hd => by
    have ha : p a = true := hA a (by simp)
    have ih := takeWhile_middle A d t (fun c hc => hA c (by simp [hc])) hd
    simp only [List.cons_append, List.takeWhile_cons, List.dropWhile_cons, ha]
    simp [ih.1, ih.2]

/-- takeWhile and dropWhile on a list that satisfies the predicate
throughout. -/
theorem takeWhile_all {p : Char → Bool} :
    ∀ (A : List Char), (∀ c ∈ A, p c = true) →
      A.takeWhile p = A ∧ A.dropWhile p = []
  | [], _ => by simp
  | a :: A, hA => by
    have ha : p a = true := hA a (by simp)
    have ih := takeWhile_all A (fun c hc => hA c (by simp [hc]))
    simp only [List.takeWhile_cons, List.dropWhile_cons, ha]
    simp [ih.1, ih.2]

/-- Leading zero characters do not change the numeric value. -/
theorem digitsToNat_replicate_zero (k : Nat) (B : List Char) :
    digitsToNat (List.replicate k '0' ++ B) = digitsToNat B := by
  unfold digitsToNat
  rw [List.foldl_append]
  have hz : ∀ j, List.foldl (fun a c => 10 * a + digitVal c) 0 (List.replicate j '0') = 0 := by
    intro j
    induction j with
    | zero => rfl
    | succ j ihj =>
      rw [List.replicate_succ, List.foldl_cons]
      have hz0 : (10 * 0 + digitVal '0') = 0 := by decide
      rw [hz0]
      exact ihj
  rw [hz k]

/-- Parsing a pure digit string gives its value. -/
theorem parseUnsignedF64_digits (A : List Char)
    (hA : ∀ c ∈ A, c.isDigit = true) (hne : A ≠ []) :
    parseUnsignedF64 A = some ((digitsToNat A : ℚ)) := by
  unfold parseUnsignedF64
  obtain ⟨ht, hd⟩ := takeWhile_all A hA
  rw [ht, hd]
  simp [List.isEmpty_iff, hne]

/-- Parsing an integer part, a dot and a fraction part gives the mixed
value. -/
theorem parseUnsignedF64_mixed (A F : List Char)
    (hA : ∀ c ∈ A, c.isDigit = true) (hne : A ≠ [])
    (hF : ∀ c ∈ F, c.isDigit = true) :
    parseUnsignedF64 (A ++ '.' :: F) =
      some ((digitsToNat A : ℚ) + (digitsToNat F : ℚ) / (10 : ℚ) ^ F.length) := by
  unfold parseUnsignedF64
  obtain ⟨ht, hd⟩ := takeWhile_middle A '.' F hA (by decide)
  rw [ht, hd]
  have hall : F.all Char.isDigit = true := List.all_eq_true.mpr hF
  simp [hall, List.isEmpty_iff, hne]

/-- The decimal-exponent search finds a witness whenever one is in
range. -/
theorem decExpGo_some : ∀ (f : Nat) (q : ℚ) (k j : Nat), k ≤ j → j < k + f →
    (q * (10 : ℚ) ^ j).den = 1 →
    ∃ m, decExpGo f q k = some m ∧ (q * (10 : ℚ) ^ m).den = 1
  | 0, _, k, j, hkj, hjf, _ => by omega
  | f + 1, q, k, j, hkj, hjf, hj => by
    unfold decExpGo
    by_cases h : (q * (10 : ℚ) ^ k).den = 1
    · exact ⟨k, by simp [h], h⟩
    · rw [if_neg h]
      have hne : k ≠ j := fun e => h (e ▸ hj)
      exact decExpGo_some f q (k + 1) j (by omega) (by omega) hj

/-- If the product with 10^k is an integer, the denominator divides
10^k. -/
theorem den_dvd_pow_of_den_one {q : ℚ} {k : Nat}
    (h : (q * (10 : ℚ) ^ k).den = 1) : q.den ∣ 10 ^ k := by
  have hint : ((q * (10 : ℚ) ^ k).num : ℚ) = q * (10 : ℚ) ^ k :=
    (Rat.den_eq_one_iff _).mp h
  have h10 : ((10 : ℚ)) ^ k ≠ 0 := by positivity
  have hq : q = ((q * (10 : ℚ) ^ k).num : ℚ) / ((10 ^ k : ℤ) : ℚ) := by
    rw [hint]
    push_cast
    field_simp
  rw [← Rat.divInt_eq_div] at hq
  have hdvd := Rat.den_dvd (q * (10 : ℚ) ^ k).num (10 ^ k : ℤ)
  rw [← hq] at hdvd
  have hmain : ((q.den : ℤ)) ∣ (((10 ^ k : ℕ) : ℤ)) := by
    exact_mod_cast hdvd
  exact_mod_cast hmain

/-- A divisor of a power of ten divides the power of ten indexed by
itself. -/
theorem dvd_ten_pow_self {d k : Nat} (hd : 0 < d) (h : d ∣ 10 ^ k) :
    d ∣ 10 ^ d := by
  have h2 : (10 : ℕ) ^ k = 2 ^ k * 5 ^ k := by
    rw [show (10 : ℕ) = 2 * 5 from rfl, mul_pow]
  rw [h2] at h
  obtain ⟨y, z, hy, hz, hyz⟩ := Nat.dvd_mul.mp h
  obtain ⟨a, _, rfl⟩ := (Nat.dvd_prime_pow Nat.prime_two).mp hy
  obtain ⟨b, _, rfl⟩ := (Nat.dvd_prime_pow (by norm_num : Nat.Prime 5)).mp hz
  have had : 2 ^ a ≤ d := Nat.le_of_dvd hd ⟨5 ^ b, hyz.symm⟩
  have hbd : 5 ^ b ≤ d := Nat.le_of_dvd hd ⟨2 ^ a, by rw [← hyz]; ring⟩
  have ha2 : a < 2 ^ a := Nat.lt_two_pow a
  have hb2 : b < 5 ^ b :=
    lt_of_lt_of_le (Nat.lt_two_pow b) (Nat.pow_le_pow_left (by norm_num) b)
  have hfin : 2 ^ a * 5 ^ b ∣ 2 ^ d * 5 ^ d :=
    mul_dvd_mul (pow_dvd_pow 2 (by omega)) (pow_dvd_pow 5 (by omega))
  rw [hyz] at hfin
  have h10 : (10 : ℕ) ^ d = 2 ^ d * 5 ^ d := by
    rw [show (10 : ℕ) = 2 * 5 from rfl, mul_pow]
  rw [h10]
  exact hfin

/-- Conversely, if the denominator divides 10^k, the product with 10^k
is an integer. -/
theorem den_one_of_den_dvd {q : ℚ} {k : Nat} (h : q.den ∣ 10 ^ k) :
    (q * (10 : ℚ) ^ k).den = 1 := by
  obtain ⟨c, hc⟩ := h
  have hden : ((q.den : ℚ)) ≠ 0 := by exact_mod_cast q.den_ne_zero
  have hqd : q * ((q.den : ℚ)) = ((q.num : ℚ)) := by
    nth_rewrite 1 [← Rat.num_div_den q]
    exact div_mul_cancel₀ _ hden
  have hp : ((10 : ℚ)) ^ k = ((q.den : ℚ)) * ((c : ℚ)) := by
    have hcast : (((10 ^ k : ℕ)) : ℚ) = (((q.den * c : ℕ)) : ℚ) := by rw [← hc]
    push_cast at hcast
    linarith
  have hval : q * (10 : ℚ) ^ k = ((q.num * c : ℤ) : ℚ) := by
    rw [hp]
    calc q * (((q.den : ℚ)) * ((c : ℚ))) = (q * ((q.den : ℚ))) * ((c : ℚ)) := by ring
      _ = ((q.num : ℚ)) * ((c : ℚ)) := by rw [hqd]
      _ = ((q.num * c : ℤ) : ℚ) := by push_cast; ring
  rw [hval, Rat.den_intCast]

/-- Every decimal fraction admits a successful decExp computation. -/
theorem decExp_isDec {q : ℚ} (h : IsDec q) :
    ∃ m, decExp q = some m ∧ (q * (10 : ℚ) ^ m).den = 1 := by
  obtain ⟨k, hk⟩ := h
  have hdvd2 : q.den ∣ 10 ^ q.den :=
    dvd_ten_pow_self q.pos (den_dvd_pow_of_den_one hk)
  exact decExpGo_some (q.den + 1) q 0 q.den (by omega) (by omega)
    (den_one_of_den_dvd hdvd2)


/-! ## Round-trip of operator serialization (toward claim C5) -/

/-- Unfolding equation for qToCharsPos when decExp succeeds. -/
theorem qToCharsPos_eq_of_decExp {q : ℚ} {k : Nat} (hk : decExp q = some k) :
    qToCharsPos q = if k = 0 then natDigits (q * (10 : ℚ) ^ k).num.toNat
      else natDigits ((q * (10 : ℚ) ^ k).num.toNat / 10 ^ k) ++ '.' ::
        (List.replicate
          (k - (natDigits ((q * (10 : ℚ) ^ k).num.toNat % 10 ^ k)).length) '0' ++
          natDigits ((q * (10 : ℚ) ^ k).num.toNat % 10 ^ k)) := by
  unfold qToCharsPos
  rw [hk]

/-- Every successfully parsed unsigned numeral is a decimal fraction. -/
theorem parseUnsignedF64_isDec {cs : List Char} {q : ℚ}
    (h : parseUnsignedF64 cs = some q) : IsDec q := by
  unfold parseUnsignedF64 at h
  split at h
  · split at h
    · exact absurd h (by simp)
    · injection h with h
      refine ⟨0, ?_⟩
      rw [← h]
      simp [Rat.den_natCast]
  · rename_i fp heq
    split at h
    · injection h with h
      refine ⟨fp.length, ?_⟩
      rw [← h]
      have hpow : ((10 : ℚ)) ^ fp.length ≠ 0 := by positivity
      have hval : ((digitsToNat (cs.takeWhile Char.isDigit) : ℚ) +
          (digitsToNat fp : ℚ) / (10 : ℚ) ^ fp.length) * (10 : ℚ) ^ fp.length
          = ((digitsToNat (cs.takeWhile Char.isDigit) * 10 ^ fp.length + digitsToNat fp : ℕ) : ℚ) := by
        push_cast
        field_simp
      rw [hval, Rat.den_natCast]
    · exact absurd h (by simp)
  · exact absurd h (by simp)

/-- Every successfully parsed signed numeral is a decimal fraction. -/
theorem parseF64_isDec {cs : List Char} {q : ℚ}
    (h : parseF64 cs = some q) : IsDec q := by
  unfold parseF64 at h
  split at h
  · exact parseUnsignedF64_isDec h
  · rw [Option.map_eq_some'] at h
    obtain ⟨p, hp, rfl⟩ := h
    obtain ⟨k, hk⟩ := parseUnsignedF64_isDec hp
    exact ⟨k, by rw [neg_mul, Rat.neg_den]; exact hk⟩
  · exact parseUnsignedF64_isDec h

/-- Rendering a positive decimal fraction parses back to the same value,
uses only dot and digit characters, and is non-empty. -/
theorem qToCharsPos_spec {q : ℚ} (hq : 0 < q) (hdec : IsDec q) :
    parseUnsignedF64 (qToCharsPos q) = some q ∧
      (∀ c ∈ qToCharsPos q, c ∈ '.' :: digitChars) ∧ qToCharsPos q ≠ [] := by
  obtain ⟨k, hk, hden⟩ := decExp_isDec hdec
  rw [qToCharsPos_eq_of_decExp hk]
  have hnum : 0 < (q * (10 : ℚ) ^ k).num := Rat.num_pos.mpr (by positivity)
  have h2 : (((q * (10 : ℚ) ^ k).num.toNat : ℕ) : ℤ) = (q * (10 : ℚ) ^ k).num :=
    Int.toNat_of_nonneg hnum.le
  have hqnum : (((q * (10 : ℚ) ^ k).num.toNat : ℕ) : ℚ) = q * (10 : ℚ) ^ k := by
    calc (((q * (10 : ℚ) ^ k).num.toNat : ℕ) : ℚ)
        = ((((q * (10 : ℚ) ^ k).num.toNat : ℕ) : ℤ) : ℚ) := by norm_cast
      _ = (((q * (10 : ℚ) ^ k).num : ℤ) : ℚ) := by rw [h2]
      _ = q * (10 : ℚ) ^ k := (Rat.den_eq_one_iff _).mp hden
  by_cases hk0 : k = 0
  · subst hk0
    rw [if_pos rfl]
    refine ⟨?_, fun c hc => List.mem_cons_of_mem _ (natDigits_mem_digitChars _ c hc),
      natDigits_ne_nil _⟩
    rw [parseUnsignedF64_digits _
      (fun c hc => digitChars_isDigit (natDigits_mem_digitChars _ c hc))
      (natDigits_ne_nil _), digitsToNat_natDigits]
    rw [hqnum, pow_zero, mul_one]
  · rw [if_neg hk0]
    have hlen : (natDigits ((q * (10 : ℚ) ^ k).num.toNat % 10 ^ k)).length ≤ k :=
      natDigits_length_le k _ (by omega)
        (Nat.mod_lt _ (by positivity))
    have hF : ∀ c ∈ (List.replicate
        (k - (natDigits ((q * (10 : ℚ) ^ k).num.toNat % 10 ^ k)).length) '0' ++
        natDigits ((q * (10 : ℚ) ^ k).num.toNat % 10 ^ k)), c.isDigit = true := by
      intro c hc
      rcases List.mem_append.mp hc with h1 | h5
      · rw [List.eq_of_mem_replicate h1]; decide
      · exact digitChars_isDigit (natDigits_mem_digitChars _ c h5)
    rw [parseUnsignedF64_mixed _ _
      (fun c hc => digitChars_isDigit (natDigits_mem_digitChars _ c hc))
      (natDigits_ne_nil _) hF]
    refine ⟨?_, ?_, by simp⟩
    · congr 1
      rw [digitsToNat_natDigits, digitsToNat_replicate_zero, digitsToNat_natDigits,
        List.length_append, List.length_replicate, Nat.sub_add_cancel hlen]
      have hpow : ((10 : ℚ)) ^ k ≠ 0 := by positivity
      have h1 : ((10 : ℚ)) ^ k * (((q * (10 : ℚ) ^ k).num.toNat / 10 ^ k : ℕ) : ℚ) +
          (((q * (10 : ℚ) ^ k).num.toNat % 10 ^ k : ℕ) : ℚ) =
          (((q * (10 : ℚ) ^ k).num.toNat : ℕ) : ℚ) := by
        exact_mod_cast congrArg (Nat.cast : ℕ → ℚ)
          (Nat.div_add_mod ((q * (10 : ℚ) ^ k).num.toNat) (10 ^ k))
      field_simp
      linear_combination h1 + hqnum
    · intro c hc
      rcases List.mem_append.mp hc with h1 | h6
      · exact List.mem_cons_of_mem _ (natDigits_mem_digitChars _ c h1)
      · rcases List.mem_cons.mp h6 with rfl | h3
        · exact List.mem_cons_self _ _
        · rcases List.mem_append.mp h3 with h4 | h5
          · rw [List.eq_of_mem_replicate h4]; decide
          · exact List.mem_cons_of_mem _ (natDigits_mem_digitChars _ c h5)

/-- On a positive value, qToChars drops the sign branch. -/
theorem qToChars_pos_eq {q : ℚ} (hq : 0 < q) : qToChars q = qToCharsPos q := by
  unfold qToChars
  rw [if_neg (not_lt.mpr hq.le)]

/-- Rendering a positive decimal fraction and reading it back with the
signed parser gives the value back. -/
theorem parseF64_qToChars {q : ℚ} (hq : 0 < q) (hdec : IsDec q) :
    parseF64 (qToChars q) = some q := by
  obtain ⟨hparse, hmem, hne⟩ := qToCharsPos_spec hq hdec
  rw [qToChars_pos_eq hq]
  cases hcs : qToCharsPos q with
  | nil => exact absurd hcs hne
  | cons c rest =>
    rw [hcs] at hparse
    have hcmem : c ∈ '.' :: digitChars := hmem c (by rw [hcs]; exact List.mem_cons_self c rest)
    unfold parseF64
    fin_cases hcmem <;> exact hparse

/-- The characters of the rendering of a positive decimal fraction. -/
theorem qToChars_mem {q : ℚ} (hq : 0 < q) (hdec : IsDec q) :
    (∀ c ∈ qToChars q, c ∈ '.' :: digitChars) ∧ qToChars q ≠ [] := by
  obtain ⟨_, hmem, hne⟩ := qToCharsPos_spec hq hdec
  rw [qToChars_pos_eq hq]
  exact ⟨hmem, hne⟩

/-- findIdx? returns none on a block of failing characters. -/
theorem findIdx_none_of_all_false {p : Char → Bool} :
    ∀ (A : List Char) (i : Nat), (∀ c ∈ A, p c = false) → List.findIdx? p A i = none
  | [], _, _ => rfl
  | a :: A, i, h => by
    have ha : p a = false := h a (by simp)
    simp only [List.findIdx?, ha, Bool.false_eq_true, if_false]
    exact findIdx_none_of_all_false A (i + 1) (fun c hc => h c (by simp [hc]))

/-- findIdx? fires immediately on a satisfying head. -/
theorem findIdx_head_true {p : Char → Bool} {c : Char} (t : List Char) (i : Nat)
    (h : p c = true) : List.findIdx? p (c :: t) i = some i := by
  simp [List.findIdx?, h]

/-- findIdx? skips a block of failing characters. -/
theorem findIdx_append_all_false {p : Char → Bool} :
    ∀ (A t : List Char) (i : Nat), (∀ c ∈ A, p c = false) →
      List.findIdx? p (A ++ t) i = List.findIdx? p t (i + A.length)
  | [], t, i, _ => by simp
  | a :: A, t, i, h => by
    have ha : p a = false := h a (by simp)
    simp only [List.cons_append, List.findIdx?, ha, Bool.false_eq_true, if_false,
      List.append_eq]
    rw [findIdx_append_all_false A t (i + 1) (fun c hc => h c (by simp [hc]))]
    congr 1
    simp only [List.length_cons]
    omega

/-- Splitting a comma-free string yields the single whole piece. -/
theorem splitOnComma_no_comma : ∀ (l : List Char), (∀ c ∈ l, c ≠ ',') → splitOnComma l = [l]
  | [], _ => rfl
  | c :: rest, h => by
    have hc : c ≠ ',' := h c (by simp)
    have ih := splitOnComma_no_comma rest (fun x hx => h x (by simp [hx]))
    unfold splitOnComma
    split
    all_goals first
      | (rename_i heq
         exact absurd heq (List.cons_ne_nil _ _))
      | exact absurd rfl hc
      | (rename_i r heq
         exact absurd (List.cons.inj heq).1 hc)
      | (rename_i a c' r hno heq
         obtain ⟨h1, h2⟩ := List.cons.inj heq
         subst h1
         subst h2
         rw [ih])

/-- Op::from_str on a single-letter opcode followed by nothing or by
another opcode consumes exactly that letter. -/
theorem from_str_single (ch : Char) (hch : ch.isAlpha = true) {t : List Char}
    (hidx : (List.findIdx? Char.isAlpha t).getD t.length = 0) :
    Op.from_str (ch :: t) = .ok (⟨ch, []⟩, 1) := by
  simp only [Op.from_str]
  rw [if_neg (by simp [hch])]
  simp [hidx]

/-- Op::from_str on the Derivation rendering consumes the opcode and the
whole numeral and recovers the window value. -/
theorem from_str_d {w : ℚ} (hw : 0 < w) (hdec : IsDec w) {t : List Char}
    (ht : t = [] ∨ ∃ c t', t = c :: t' ∧ c.isAlpha = true) :
    Op.from_str ('d' :: (qToChars w ++ t)) = .ok (⟨'d', [w]⟩, 1 + (qToChars w).length) := by
  obtain ⟨hmem, hne⟩ := qToChars_mem hw hdec
  have hnoalpha : ∀ c ∈ qToChars w, Char.isAlpha c = false := by
    intro c hc
    rcases List.mem_cons.mp (hmem c hc) with rfl | h
    · decide
    · exact digitChars_not_alpha h
  have hnocomma : ∀ c ∈ qToChars w, c ≠ ',' := by
    intro c hc
    rcases List.mem_cons.mp (hmem c hc) with rfl | h
    · decide
    · exact (digitChars_not_special h).1
  have hidx : (List.findIdx? Char.isAlpha (qToChars w ++ t)).getD (qToChars w ++ t).length
      = (qToChars w).length := by
    rcases ht with rfl | ⟨c, t', rfl, hc⟩
    · rw [List.append_nil, findIdx_none_of_all_false _ 0 hnoalpha]
      rfl
    · rw [findIdx_append_all_false _ _ 0 hnoalpha, findIdx_head_true t' _ hc]
      simp
  have hlen0 : ¬ ((qToChars w).length = 0) := fun h0 => hne (List.length_eq_zero.mp h0)
  simp only [Op.from_str]
  rw [if_neg (by simp)]
  simp only [hidx]
  rw [if_neg hlen0, List.take_left, splitOnComma_no_comma _ hnocomma]
  have hone : [qToChars w].mapM parseF64 = some [w] := by
    rw [List.mapM_cons, parseF64_qToChars hw hdec, List.mapM_nil]
    rfl
  rw [hone]

/-- The rendering of a well-formed operator starts with an alphabetic
character. -/
theorem to_string_head {op : Operator} (hwf : opWF op) :
    ∃ c t, Operator.to_string op = c :: t ∧ c.isAlpha = true := by
  cases op with
  | transform tr =>
    cases tr
    all_goals exact ⟨_, _, rfl, by decide⟩
  | dump d =>
    cases d with
    | DataSheet c =>
      rcases hwf with rfl | rfl
      · exact ⟨'C', [], rfl, by decide⟩
      · exact ⟨'O', [], rfl, by decide⟩
    | Plotter => exact ⟨'P', [], rfl, by decide⟩

/-- Op::from_str on the rendering of any well-formed operator (followed
by nothing or by a further opcode) recovers its raw form and consumes
exactly the rendering. -/
theorem from_str_render {op : Operator} (hwf : opWF op) (t : List Char)
    (ht : t = [] ∨ ∃ c t', t = c :: t' ∧ c.isAlpha = true) :
    Op.from_str (Operator.to_string op ++ t) = .ok (opRaw op, (Operator.to_string op).length) := by
  have hidx : (List.findIdx? Char.isAlpha t).getD t.length = 0 := by
    rcases ht with rfl | ⟨c, t', rfl, hc⟩
    · rfl
    · rw [findIdx_head_true t' 0 hc]
      rfl
  cases op with
  | transform tr =>
    cases tr
    case Derivation w =>
      obtain ⟨hw, hdec⟩ := hwf
      have hlen : (Operator.to_string (.transform (.Derivation w))).length
          = 1 + (qToChars w).length := by
        simp [Operator.to_string, Transform.to_string, Nat.add_comm]
      rw [hlen]
      exact from_str_d hw hdec ht
    all_goals first
      | exact from_str_single 'c' (by decide) hidx
      | exact from_str_single 'i' (by decide) hidx
      | exact from_str_single 'm' (by decide) hidx
      | exact from_str_single 'r' (by decide) hidx
      | exact from_str_single 's' (by decide) hidx
      | exact from_str_single 'o' (by decide) hidx
  | dump d =>
    cases d with
    | DataSheet c =>
      rcases hwf with rfl | rfl
      · exact from_str_single 'C' (by decide) hidx
      · exact from_str_single 'O' (by decide) hidx
    | Plotter => exact from_str_single 'P' (by decide) hidx

/-- The head given by head? is a member. -/
theorem mem_of_headq_eq_some {a : ℚ} {l : List ℚ} (h : l.head? = some a) : a ∈ l := by
  cases l with
  | nil => exact absurd h (by simp)
  | cons x xs =>
    simp only [List.head?] at h
    injection h with h
    subst h
    exact List.mem_cons_self x xs

/-- A parsed Derivation window comes from the raw argument list. -/
theorem derivation_window_mem (o : Op) (w : ℚ)
    (h : Transform.from_op o = .ok (.Derivation w)) : w ∈ o.arg := by
  unfold Transform.from_op at h
  split at h
  · exact absurd h (by simp)
  · cases hh : List.head? o.arg with
    | none => rw [hh] at h; simp at h
    | some w' =>
      rw [hh] at h
      simp only [DerivationOperator.new] at h
      by_cases hw : w' ≤ 0
      · simp [hw, Except.map] at h
      · rw [if_neg hw] at h
        simp only [Except.map] at h
        injection h with h
        injection h with h
        rw [← h]
        exact mem_of_headq_eq_some hh
  · exact absurd h (by simp)
  · exact absurd h (by simp)
  · exact absurd h (by simp)
  · exact absurd h (by simp)
  · exact absurd h (by simp)
  · exact absurd h (by simp)

/-- Every operator built by Operator::from_op from a raw op whose
arguments are decimal fractions is well-formed. -/
theorem from_op_wf (o : Op) (op : Operator)
    (h : Operator.from_op o = .ok op) (hdec : ∀ q ∈ o.arg, IsDec q) : opWF op := by
  unfold Operator.from_op at h
  by_cases hl : o.op.isLower
  · rw [if_pos hl] at h
    cases ht : Transform.from_op o with
    | error e => rw [ht] at h; simp [Except.map] at h
    | ok t =>
      rw [ht] at h
      simp only [Except.map] at h
      injection h with h
      subst h
      cases t
      all_goals first
        | trivial
        | (rename_i w
           exact ⟨derivation_window_pos o w ht, hdec w (derivation_window_mem o w ht)⟩)
  · rw [if_neg hl] at h
    by_cases hu : o.op.isUpper
    · rw [if_pos hu] at h
      cases hd : Dump.from_op o with
      | error e => rw [hd] at h; simp [Except.map] at h
      | ok d =>
        rw [hd] at h
        simp only [Except.map] at h
        injection h with h
        subst h
        cases d with
        | Plotter => trivial
        | DataSheet c =>
          unfold Dump.from_op at hd
          split at hd
          · exact absurd hd (by simp)
          · injection hd with hd
            injection hd with hd
            exact Or.inl hd.symm
          · injection hd with hd
            injection hd with hd
            exact Or.inr hd.symm
          · exact absurd hd (by simp)
    · rw [if_neg hu] at h
      simp at h

/-- mapM over Operator::from_op on decimal-fraction raw ops only
produces well-formed operators. -/
theorem mapM_from_op_wf :
    ∀ (raws : List Op) (ops : List Operator),
      raws.mapM Operator.from_op = .ok ops → (∀ r ∈ raws, ∀ q ∈ r.arg, IsDec q) →
      ∀ op ∈ ops, opWF op
  | [], ops, h, _ => by
    intro op hop
    simp only [List.mapM_nil] at h
    cases h
    simp at hop
  | r :: raws, ops, h, hdec => by
    intro op hop
    rw [List.mapM_cons] at h
    cases hf : Operator.from_op r with
    | error e =>
      rw [hf] at h
      simp [Bind.bind, Except.bind] at h
    | ok op0 =>
      rw [hf] at h
      cases hm : raws.mapM Operator.from_op with
      | error e =>
        rw [hm] at h
        simp [Bind.bind, Except.bind] at h
      | ok rest =>
        rw [hm] at h
        simp only [Bind.bind, Except.bind, pure, Except.pure] at h
        injection h with h
        subst h
        rcases List.mem_cons.mp hop with h1 | h2
        · rw [h1]; exact from_op_wf r op0 hf (hdec r (by simp))
        · exact mapM_from_op_wf raws rest hm (fun r' hr' => hdec r' (by simp [hr'])) op h2

/-- Every value produced by mapM parseF64 is a decimal fraction. -/
theorem mapM_parseF64_mem : ∀ (pieces : List (List Char)) (args : List ℚ),
    pieces.mapM parseF64 = some args → ∀ q ∈ args, IsDec q
  | [], args, h => by
    simp only [List.mapM_nil] at h
    injection h with h
    subst h
    intro q hq
    exact absurd hq (List.not_mem_nil q)
  | p :: pieces, args, h => by
    rw [List.mapM_cons] at h
    cases hp : parseF64 p with
    | none =>
      rw [hp] at h
      simp [Bind.bind, Option.bind] at h
    | some q0 =>
      rw [hp] at h
      cases hps : pieces.mapM parseF64 with
      | none =>
        rw [hps] at h
        simp [Bind.bind, Option.bind] at h
      | some qs =>
        rw [hps] at h
        simp only [Bind.bind, Option.bind, pure] at h
        injection h with h
        subst h
        intro q hq
        rcases List.mem_cons.mp hq with rfl | hmem
        · exact parseF64_isDec hp
        · exact mapM_parseF64_mem pieces qs hps q hmem

/-- Every argument of a raw op produced by Op::from_str is a decimal
fraction. -/
theorem from_str_isDec {s : List Char} {o : Op} {n : Nat}
    (h : Op.from_str s = .ok (o, n)) : ∀ q ∈ o.arg, IsDec q := by
  simp only [Op.from_str] at h
  split at h
  · exact absurd h (by simp)
  · split at h
    · exact absurd h (by simp)
    · split at h
      · injection h with h1
        injection h1 with h2 h3
        subst h2
        intro q hq
        exact absurd hq (List.not_mem_nil q)
      · split at h
        · rename_i args hargs
          injection h with h1
          injection h1 with h2 h3
          subst h2
          intro q hq
          exact mapM_parseF64_mem _ _ hargs q hq
        · exact absurd h (by simp)

/-- Every raw op produced by the str_to_ops loop has decimal-fraction
arguments. -/
theorem strToOpsGo_isDec : ∀ (fuel : Nat) (s : List Char) (raws : List Op),
    strToOpsGo fuel s = .ok raws → ∀ raw ∈ raws, ∀ q ∈ raw.arg, IsDec q
  | fuel, [], raws, h => by
    cases fuel with
    | zero =>
      injection h with h
      subst h
      intro raw hraw
      exact absurd hraw (List.not_mem_nil raw)
    | succ f =>
      injection h with h
      subst h
      intro raw hraw
      exact absurd hraw (List.not_mem_nil raw)
  | 0, c :: rest, raws, h => Except.noConfusion h
  | fuel + 1, c :: rest, raws, h => by
    simp only [strToOpsGo] at h
    split at h
    · exact Except.noConfusion h
    · rename_i op n hfs
      cases hrec : strToOpsGo fuel ((c :: rest).drop n) with
      | error e => rw [hrec] at h; exact Except.noConfusion h
      | ok raws' =>
        rw [hrec] at h
        simp only [Except.map] at h
        injection h with h
        subst h
        intro raw hraw
        rcases List.mem_cons.mp hraw with rfl | hmem
        · exact from_str_isDec hfs
        · exact strToOpsGo_isDec fuel _ raws' hrec raw hmem

/-- Every operator of a successfully parsed sequence is well-formed. -/
theorem opSeqNew_wf {s : List Char} {ops : List Operator}
    (h : OpSeq.new s = .ok ops) : ∀ op ∈ ops, opWF op := by
  unfold OpSeq.new OpSeq.str_to_ops at h
  cases hraw : strToOpsGo s.length s with
  | error e =>
    rw [hraw] at h
    simp [Bind.bind, Except.bind] at h
  | ok raws =>
    rw [hraw] at h
    simp only [Bind.bind, Except.bind] at h
    exact mapM_from_op_wf raws ops h (strToOpsGo_isDec _ _ _ hraw)

/-- The str_to_ops loop on a concatenation of well-formed renderings
recovers the raw ops, for any sufficient fuel. -/
theorem strToOpsGo_renders : ∀ (ops : List Operator) (fuel : Nat),
    (∀ op ∈ ops, opWF op) →
    ((ops.map Operator.to_string).flatten).length ≤ fuel →
    strToOpsGo fuel ((ops.map Operator.to_string).flatten) = .ok (ops.map opRaw)
  | [], fuel, _, _ => by cases fuel <;> rfl
  | op :: ops, fuel, hwf, hfuel => by
    obtain ⟨c, t0, hts, halpha⟩ := to_string_head (hwf op (by simp))
    have hflat : ((op :: ops).map Operator.to_string).flatten
        = Operator.to_string op ++ (ops.map Operator.to_string).flatten := by
      simp
    rw [hflat] at hfuel ⊢
    have hside : (ops.map Operator.to_string).flatten = [] ∨
        ∃ c' t', (ops.map Operator.to_string).flatten = c' :: t' ∧ c'.isAlpha = true := by
      cases ops with
      | nil => exact Or.inl rfl
      | cons op2 ops2 =>
        obtain ⟨c2, t2, hts2, ha2⟩ := to_string_head (hwf op2 (by simp))
        refine Or.inr ⟨c2, t2 ++ (ops2.map Operator.to_string).flatten, ?_, ha2⟩
        simp [hts2]
    have hfs := from_str_render (hwf op (by simp)) _ hside
    have hlen1 : 1 ≤ (Operator.to_string op).length := by rw [hts]; simp
    cases fuel with
    | zero =>
      exfalso
      rw [List.length_append] at hfuel
      omega
    | succ f =>
      rw [hts] at hfs ⊢
      rw [List.cons_append] at hfs ⊢
      simp only [strToOpsGo, hfs]
      have hdrop : (c :: (t0 ++ (ops.map Operator.to_string).flatten)).drop (c :: t0).length
          = (ops.map Operator.to_string).flatten := by
        rw [List.length_cons, List.drop_succ_cons, List.drop_left]
      rw [hdrop]
      have hfuel2 : ((ops.map Operator.to_string).flatten).length ≤ f := by
        rw [List.length_append, hts] at hfuel
        simp only [List.length_cons] at hfuel
        omega
      rw [strToOpsGo_renders ops f (fun o ho => hwf o (by simp [ho])) hfuel2]
      rfl

/-- OpSeq::str_to_ops on a concatenation of well-formed renderings
recovers the raw ops. -/
theorem str_to_ops_renders {ops : List Operator} (hwf : ∀ op ∈ ops, opWF op) :
    OpSeq.str_to_ops ((ops.map Operator.to_string).flatten) = .ok (ops.map opRaw) :=
  strToOpsGo_renders ops _ hwf le_rfl

/-- Operator::from_op undoes opRaw on well-formed operators. -/
theorem from_op_opRaw {op : Operator} (hwf : opWF op) :
    Operator.from_op (opRaw op) = .ok op := by
  cases op with
  | transform tr =>
    cases tr
    case Derivation w =>
      obtain ⟨hw, -⟩ := hwf
      have hnew : DerivationOperator.new w = .ok w := by
        unfold DerivationOperator.new
        rw [if_neg (not_le.mpr hw)]
      have h1 : Operator.from_op (opRaw (.transform (.Derivation w)))
          = (Transform.from_op ⟨'d', [w]⟩).map Operator.transform := rfl
      have h2 : Transform.from_op ⟨'d', [w]⟩
          = (DerivationOperator.new w).map Transform.Derivation := rfl
      rw [h1, h2, hnew]
      rfl
    all_goals with_unfolding_all decide
  | dump d =>
    cases d with
    | DataSheet c =>
      rcases hwf with rfl | rfl <;> with_unfolding_all decide
    | Plotter => with_unfolding_all decide

/-- mapM over Operator::from_op undoes opRaw on well-formed operator
lists. -/
theorem mapM_from_op_opRaw : ∀ (ops : List Operator), (∀ op ∈ ops, opWF op) →
    (ops.map opRaw).mapM Operator.from_op = .ok ops
  | [], _ => rfl
  | op :: ops, hwf => by
    rw [List.map_cons, List.mapM_cons, from_op_opRaw (hwf op (by simp)),
      mapM_from_op_opRaw ops (fun o ho => hwf o (by simp [ho]))]
    rfl

/-- OpSeq::new parses the concatenation of well-formed renderings back
to exactly those operators. -/
theorem opSeqNew_renders {ops : List Operator} (hwf : ∀ op ∈ ops, opWF op) :
    OpSeq.new ((ops.map Operator.to_string).flatten) = .ok ops := by
  unfold OpSeq.new
  rw [str_to_ops_renders hwf]
  exact mapM_from_op_opRaw ops hwf

/-- OpSeq::to_string with include_dump renders every taken operator with
Operator::to_string. -/
theorem opSeq_to_string_true (ops : List Operator) (n : Nat) :
    OpSeq.to_string ops n true = ((ops.take (n + 1)).map Operator.to_string).flatten := by
  unfold OpSeq.to_string
  congr 1

/-- Claim C5: re-serializing a parsed operator-sequence prefix with
OpSeq::to_string(n, include_dump = true) and re-parsing it with
OpSeq::new yields exactly the original operators up to and including
index n (the code's until_index is inclusive, so the spec's
prefix(n, true) is the code's to_string(n - 1, true)); and the
re-serialization is canonical: the differently spelled argument texts
d1.0 and d1 parse to the same operator and re-render to the same
string d1. -/
theorem C5_roundtrip :
    (∀ (s : List Char) (ops : List Operator) (n : Nat),
      OpSeq.new s = .ok ops →
      OpSeq.new (OpSeq.to_string ops n true) = .ok (ops.take (n + 1))) ∧
    (OpSeq.new ['d','1','.','0']).map (fun ops => OpSeq.to_string ops 0 true)
      = .ok ['d','1'] ∧
    (OpSeq.new ['d','1']).map (fun ops => OpSeq.to_string ops 0 true)
      = .ok ['d','1'] := by
  refine ⟨?_, ?_, ?_⟩
  · intro s ops n h
    have hwf := opSeqNew_wf h
    have hwf2 : ∀ op ∈ ops.take (n + 1), opWF op :=
      fun op hop => hwf op (List.take_subset _ _ hop)
    rw [opSeq_to_string_true]
    exact opSeqNew_renders hwf2
  · with_unfolding_all decide
  · with_unfolding_all decide

/-- Witness for C5: the parsed sequence "cod5" re-serialized up to
index 1 ("co") re-parses to its first two operators. -/
theorem C5_witness :
    OpSeq.new (OpSeq.to_string
      [.transform .CDF, .transform .Sort, .transform (.Derivation 5)] 1 true)
      = .ok ([Operator.transform .CDF, .transform .Sort, .transform (.Derivation 5)].take 2) :=
  C5_roundtrip.1 ['c','o','d','5']
    [.transform .CDF, .transform .Sort, .transform (.Derivation 5)] 1
    (by with_unfolding_all decide)
